import Mathlib

/-!
Shallow embedding of the mancala rule engine of this repository
(src/game_logic/ruleset.py, src/game_logic/board.py, src/game_logic/gamestate.py)
and of the engine protocol client (src/engine.py).

Modelling conventions.

* Python hole/store contents are lists of decorative `Seed` objects; every
  observable read is a `len(...)`, so a cell is modelled as its count (a `Nat`).
  `Board.buffer` is the seed stash that `Board.__setitem__` pops from when a
  cell count grows and pushes to when it shrinks; popping from an empty buffer
  is a Python `IndexError`, modelled as `none`.
* Exceptions are modelled with `Except (GameErr × Gamestate) Gamestate`: an
  error carries the state of the `Gamestate` object observable by the caller
  after the exception propagates.  Validation errors and the terminal-sweep
  `AttributeError` carry the exact object state at raise time; the
  `internalError` branches (out-of-range board access / buffer underflow inside
  move resolution, unreachable for valid rulesets) carry the state at entry of
  the failing composite operation.
* `Gamestate._play_move` is recursive (relay sowing); the recursion depth is
  made explicit with a `fuel` argument, `none` meaning the recursion did not
  finish within `fuel` nested segments.
* The rendering/animation code paths (`_animate_move`, board images, the board
  stack) perform exactly the same state mutations as `_play_move` plus deep
  copies for drawing; only the logical state machine is embedded.
* `Board.__init__` writes the literal `6` for the number of holes per side,
  which equals `NUMBER_OF_HOLES_PER_SIDE` of `DefaultRuleset` — the only
  ruleset the program ever constructs (`Gamestate.__init__` takes no ruleset
  parameter).  The initial board is parameterized by the ruleset so that
  claims quantified over rulesets can be stated; on the only constructible
  ruleset the two coincide.
-/

namespace Mancala

/-- src/game_logic/ruleset.py: the `Ruleset` TypedDict. -/
structure Ruleset where
  allow_captures : Bool
  capture_both : Bool
  capture_on_one_cycle : Bool
  do_relay_sowing : Bool
  allow_multiple_laps : Bool
  seeds_per_hole : Nat
  NUMBER_OF_HOLES_PER_SIDE : Nat
  NUMBER_OF_TOTAL_HOLES : Nat
  PLAYER_TO_STORE_INDEX : Nat × Nat

/-- src/game_logic/ruleset.py: `DefaultRuleset()`. -/
def DefaultRuleset : Ruleset :=
  { allow_captures := true
    capture_both := true
    capture_on_one_cycle := false
    do_relay_sowing := false
    allow_multiple_laps := true
    seeds_per_hole := 4
    NUMBER_OF_HOLES_PER_SIDE := 6
    NUMBER_OF_TOTAL_HOLES := 14
    PLAYER_TO_STORE_INDEX := (6, 13) }

/-- Well-formedness of a ruleset, following the derived-constant relations the
spec states in section 3 (`total_holes = 2*(holes_per_side+1)`, store of a side
right after that side's holes).  `DefaultRuleset` satisfies it. -/
def Ruleset.Valid (rs : Ruleset) : Prop :=
  0 < rs.NUMBER_OF_HOLES_PER_SIDE ∧
  rs.NUMBER_OF_TOTAL_HOLES = 2 * (rs.NUMBER_OF_HOLES_PER_SIDE + 1) ∧
  rs.PLAYER_TO_STORE_INDEX.1 = rs.NUMBER_OF_HOLES_PER_SIDE ∧
  rs.PLAYER_TO_STORE_INDEX.2 = 2 * rs.NUMBER_OF_HOLES_PER_SIDE + 1

instance (rs : Ruleset) : Decidable rs.Valid := by
  unfold Ruleset.Valid; exact inferInstance

/-- src/game_logic/board.py: the observable state of a `Board`.  `holes` are
the two per-side hole rows, `store` the two store counts, `buffer` the count of
seeds currently in `self.buffer` (the stash `__setitem__` moves seeds
through). -/
structure Board where
  holes : List Nat × List Nat
  store : Nat × Nat
  buffer : Nat

/-- Source `Board.__init__`: each of the per-side hole rows is filled with
`seeds_per_hole` seeds (the source writes the literal `6` for the row length,
equal to `NUMBER_OF_HOLES_PER_SIDE` of the only constructible ruleset);
stores and buffer start empty. -/
def initBoard (rs : Ruleset) : Board :=
  { holes := (List.replicate rs.NUMBER_OF_HOLES_PER_SIDE rs.seeds_per_hole,
              List.replicate rs.NUMBER_OF_HOLES_PER_SIDE rs.seeds_per_hole)
    store := (0, 0)
    buffer := 0 }

/-- Source `Board.get_holes(side)`: the raw hole row of a side (`self.holes[side]`). -/
def Board.sideHoles (b : Board) (side : Nat) : List Nat :=
  if side = 0 then b.holes.1 else b.holes.2

/-- The side computed by `Board.__getitem__`/`__setitem__`:
`hole_index > PLAYER_TO_STORE_INDEX[0]` used as a 0/1 index. -/
def sideOf (rs : Ruleset) (i : Nat) : Nat :=
  if rs.PLAYER_TO_STORE_INDEX.1 < i then 1 else 0

/-- The relative index computed by `Board.__getitem__`/`__setitem__`:
`hole_index % (NUMBER_OF_HOLES_PER_SIDE + 1)`. -/
def relOf (rs : Ruleset) (i : Nat) : Nat :=
  i % (rs.NUMBER_OF_HOLES_PER_SIDE + 1)

/-- Source `Board.__getitem__`.  Out-of-range raises (`InvalidMove`), modelled as
`none`.  The addressed cell is the side's store when the relative index equals
`NUMBER_OF_HOLES_PER_SIDE`, else the hole at the relative index (in range for
every valid ruleset, hence `getD`). -/
def bget (rs : Ruleset) (b : Board) (i : Nat) : Option Nat :=
  if rs.NUMBER_OF_TOTAL_HOLES ≤ i then none
  else
    let side := sideOf rs i
    let rel := relOf rs i
    if rel = rs.NUMBER_OF_HOLES_PER_SIDE then
      some (if side = 0 then b.store.1 else b.store.2)
    else
      some ((if side = 0 then b.holes.1 else b.holes.2).getD rel 0)

/-- Source `bget` with the 0 default (used only where the index is known in range). -/
def bgetD (rs : Ruleset) (b : Board) (i : Nat) : Nat :=
  (bget rs b i).getD 0

/-- Write `v` into the cell addressed by `(side, rel, isStore)` with the new
buffer value `buf`. -/
def writeCell (b : Board) (side rel : Nat) (isStore : Bool) (v buf : Nat) : Board :=
  if isStore then
    if side = 0 then { b with store := (v, b.store.2), buffer := buf }
    else { b with store := (b.store.1, v), buffer := buf }
  else
    if side = 0 then { b with holes := (b.holes.1.set rel v, b.holes.2), buffer := buf }
    else { b with holes := (b.holes.1, b.holes.2.set rel v), buffer := buf }

/-- Source `Board.__setitem__`.  Out-of-range raises (`none`); growing the cell pops
seeds one by one from `self.buffer` — popping from an empty buffer is a Python
`IndexError`, modelled as `none`; shrinking pushes the removed seeds onto the
buffer. -/
def bset (rs : Ruleset) (b : Board) (i v : Nat) : Option Board :=
  if rs.NUMBER_OF_TOTAL_HOLES ≤ i then none
  else
    let side := sideOf rs i
    let rel := relOf rs i
    let isStore : Bool := rel = rs.NUMBER_OF_HOLES_PER_SIDE
    let c : Nat :=
      if isStore then (if side = 0 then b.store.1 else b.store.2)
      else (if side = 0 then b.holes.1 else b.holes.2).getD rel 0
    if c < v then
      if b.buffer < v - c then none
      else some (writeCell b side rel isStore v (b.buffer - (v - c)))
    else some (writeCell b side rel isStore v (b.buffer + (c - v)))

/-- Source `self._board[i] += d`: a read followed by a write of the increased count. -/
def badd (rs : Ruleset) (b : Board) (i d : Nat) : Option Board :=
  match bget rs b i with
  | none => none
  | some c => bset rs b i (c + d)

/-- Source `Board.__str__`: space-separated counts for absolute indices
`0..NUMBER_OF_TOTAL_HOLES-1` (all reads in range, hence the 0 default). -/
def boardStr (rs : Ruleset) (b : Board) : String :=
  String.intercalate " " ((List.range rs.NUMBER_OF_TOTAL_HOLES).map
    (fun i => toString (bgetD rs b i)))

/-- Spec section 7's error taxonomy mapped onto the source exceptions:
`moveOutOfRange` is `InvalidMove` (raised by `play_move` for an out-of-range
move), `emptyHole` is `IllegalMove` (docstring: "when the hole is empty"),
`gameOver` is the spec's `StateError{GameOver}` — no such exception class
exists anywhere in the source and nothing raises it, the constructor exists
only so statements about it can be written.  `attributeError` is the Python
`AttributeError` raised by `_check_terminal` when it calls the nonexistent
`Board.get_store`; `internalError` stands for the remaining low-level Python
errors (out-of-range cell access, buffer pop on empty) on paths unreachable
under a valid ruleset. -/
inductive GameErr where
  | moveOutOfRange
  | emptyHole
  | gameOver
  | attributeError
  | internalError
deriving DecidableEq

/-- src/game_logic/gamestate.py: the observable fields of `Gamestate`
(the board stack and image rendering are presentation-only). -/
structure Gamestate where
  current_player : Nat
  board : Board
  game_over : Bool
  result : Option Nat
  score_1 : Option Nat
  score_2 : Option Nat

/-- Source `Gamestate.__init__()` — always uses `DefaultRuleset` in the source. -/
def initGame (rs : Ruleset) : Gamestate :=
  { current_player := 0
    board := initBoard rs
    game_over := false
    result := none
    score_1 := none
    score_2 := none }

/-- Source `Gamestate.valid_mask`: one flag per hole of the current player's row. -/
def validMask (g : Gamestate) : List Bool :=
  (g.board.sideHoles g.current_player).map (fun h => decide (0 < h))

/-- Source `Gamestate.next_player`. -/
def nextPlayer (g : Gamestate) : Gamestate :=
  { g with current_player := 1 - g.current_player }

/-- Source `PLAYER_TO_STORE_INDEX[side]` for `side ∈ {0,1}`. -/
def storeIdx (rs : Ruleset) (side : Nat) : Nat :=
  if side = 0 then rs.PLAYER_TO_STORE_INDEX.1 else rs.PLAYER_TO_STORE_INDEX.2

/-- Source `Gamestate.relative_index_to_absolute` (player 1 shifts by
`NUMBER_OF_HOLES_PER_SIDE + 1`). -/
def relIdxToAbs (rs : Ruleset) (g : Gamestate) (rel : Nat) : Nat :=
  if g.current_player = 1 then rel + (rs.NUMBER_OF_HOLES_PER_SIDE + 1) else rel

/-- Source `Gamestate.absolute_index_to_relative`. -/
def absIdxToRel (rs : Ruleset) (i : Nat) : Nat :=
  i % (rs.NUMBER_OF_HOLES_PER_SIDE + 1)

/-- Source `Gamestate.is_valid_move`: is the absolute index within the current
player's row-plus-own-store range. -/
def isValidMove (rs : Ruleset) (g : Gamestate) (i : Nat) : Bool :=
  let l : Nat := if g.current_player = 0 then 0 else rs.PLAYER_TO_STORE_INDEX.1 + 1
  decide (l ≤ i ∧ i ≤ l + rs.NUMBER_OF_HOLES_PER_SIDE)

/-- Source `Gamestate.score(side)`: note the source returns `_score_1` (assigned from
store 0) for `side = 1` and `_score_2` (assigned from store 1) for
`side = 0`. -/
def Gamestate.score (g : Gamestate) (side : Nat) : Option Nat :=
  if side ≠ 0 then g.score_1 else g.score_2

/-- Source `Gamestate.terminate`: flags the game over and resets the displayed
player to 0. -/
def terminate (g : Gamestate) : Gamestate :=
  { g with game_over := true, current_player := 0 }

/-- The advance of the sowing loop: `hole_index += 1` followed by the wrap
`if hole_index == NUMBER_OF_TOTAL_HOLES: hole_index = 0`. -/
def nextIdx (rs : Ruleset) (i : Nat) : Nat :=
  if i + 1 = rs.NUMBER_OF_TOTAL_HOLES then 0 else i + 1

/-- The sowing loop of `Gamestate._play_move` (lines 211-224): one recursive
step per deposited seed.  Each iteration advances (with wrap), drops the
first-cycle flag on passing the mover's own store, skips the opponent's store
(`continue` — unrolled here into a second advance, which cannot hit the
opponent's store again since consecutive indices differ; the impossible case
is `none`), then deposits one seed.  Returns the board, the final value of
`hole_index` and the first-cycle flag. -/
def sow (rs : Ruleset) (player : Nat) :
    Nat → Board → Nat → Bool → Option (Board × Nat × Bool)
  | 0, b, idx, fc => some (b, idx, fc)
  | seeds + 1, b, idx, fc =>
    let j := nextIdx rs idx
    let fc1 := if j = storeIdx rs player then false else fc
    if j = storeIdx rs (1 - player) then
      let k := nextIdx rs j
      let fc2 := if k = storeIdx rs player then false else fc1
      if k = storeIdx rs (1 - player) then none
      else
        match badd rs b k 1 with
        | none => none
        | some b2 => sow rs player seeds b2 k fc2
    else
      match badd rs b j 1 with
      | none => none
      | some b2 => sow rs player seeds b2 j fc1

/-- Source `Gamestate._do_capture(hole_index, side)` (lines 186-200).  Reads the
mirror hole `2*PLAYER_TO_STORE_INDEX[0] - hole_index`; returns `(g, false)`
without mutation unless the landing index is a valid cell of the current
player and the mirror hole is nonempty; otherwise swaps the player first,
empties the mirror hole (and, under `capture_both`, the landing hole) and
credits the mover's store. -/
def doCapture (rs : Ruleset) (g : Gamestate) (holeIdx side : Nat) :
    Option (Gamestate × Bool) :=
  let opposite := 2 * rs.PLAYER_TO_STORE_INDEX.1 - holeIdx
  match bget rs g.board opposite with
  | none => none
  | some seeds =>
    if isValidMove rs g holeIdx = true ∧ seeds ≠ 0 then
      let g1 := nextPlayer g
      match bset rs g1.board opposite 0 with
      | none => none
      | some bA =>
        if rs.capture_both then
          match bget rs bA holeIdx with
          | none => none
          | some cnt =>
            match bset rs bA holeIdx 0 with
            | none => none
            | some bB =>
              match badd rs bB (storeIdx rs side) (seeds + cnt) with
              | none => none
              | some bC => some ({ g1 with board := bC }, true)
        else
          match badd rs bA (storeIdx rs side) seeds with
          | none => none
          | some bC => some ({ g1 with board := bC }, true)
    else some (g, false)

/-- Source `Gamestate._play_move(relative_hole_index)` (lines 202-244), with explicit
relay-recursion fuel (`none` = the relay chain did not finish within `fuel`
segments).  Picks up the source hole, sows, then resolves the landing:
own store + `allow_multiple_laps` keeps the mover; a hole reading 1 attempts a
capture subject to `allow_captures`/`capture_on_one_cycle`; any other hole
relays under `do_relay_sowing` via `absolute_index_to_relative`; every
remaining path swaps the player. -/
def playMoveAux (rs : Ruleset) :
    Nat → Gamestate → Nat → Option (Except (GameErr × Gamestate) Gamestate)
  | 0, _, _ => none
  | fuel + 1, g, rel =>
    let player := g.current_player
    let holeIdx := relIdxToAbs rs g rel
    match bget rs g.board holeIdx with
    | none => some (Except.error (GameErr.internalError, g))
    | some seedCount =>
      match bset rs g.board holeIdx 0 with
      | none => some (Except.error (GameErr.internalError, g))
      | some b1 =>
        match sow rs player seedCount b1 holeIdx true with
        | none => some (Except.error (GameErr.internalError, g))
        | some (b2, lastIdx, fc) =>
          let g2 := { g with board := b2 }
          if lastIdx = storeIdx rs player then
            if rs.allow_multiple_laps then some (Except.ok g2)
            else some (Except.ok (nextPlayer g2))
          else
            match bget rs b2 lastIdx with
            | none => some (Except.error (GameErr.internalError, g2))
            | some cnt =>
              if cnt = 1 then
                if rs.allow_captures then
                  if rs.capture_on_one_cycle then
                    if fc then
                      match doCapture rs g2 lastIdx player with
                      | none => some (Except.error (GameErr.internalError, g2))
                      | some (g3, true) => some (Except.ok g3)
                      | some (g3, false) => some (Except.ok (nextPlayer g3))
                    else some (Except.ok (nextPlayer g2))
                  else
                    match doCapture rs g2 lastIdx player with
                    | none => some (Except.error (GameErr.internalError, g2))
                    | some (g3, true) => some (Except.ok g3)
                    | some (g3, false) => some (Except.ok (nextPlayer g3))
                else some (Except.ok (nextPlayer g2))
              else
                if rs.do_relay_sowing then
                  playMoveAux rs fuel g2 (absIdxToRel rs lastIdx)
                else some (Except.ok (nextPlayer g2))

/-- The sweep loop of `Gamestate._check_terminal` (lines 158-165): walks the
absolute indices accumulating hole seeds and flushing the accumulator into
each store (`i in PLAYER_TO_STORE_INDEX`). -/
def sweep (rs : Ruleset) : List Nat → Board → Nat → Option (Board × Nat)
  | [], b, acc => some (b, acc)
  | i :: is, b, acc =>
    if i = rs.PLAYER_TO_STORE_INDEX.1 ∨ i = rs.PLAYER_TO_STORE_INDEX.2 then
      match badd rs b i acc with
      | none => none
      | some b2 => sweep rs is b2 0
    else
      match bget rs b i with
      | none => none
      | some c =>
        match bset rs b i 0 with
        | none => none
        | some b2 => sweep rs is b2 (acc + c)

/-- Source `Gamestate._check_terminal` (lines 150-175, logical part).  If either hole
row is entirely empty: `terminate()`, run the sweep, and then the source
executes `self._board.get_store(0)` — `Board` has no attribute `get_store`
(src/game_logic/board.py defines only `get_holes`), so Python raises
`AttributeError` here, after the board has been swept and the game flagged
over but before `_score_1`, `_score_2` or `_result` are assigned. -/
def checkTerminal (rs : Ruleset) (g : Gamestate) :
    Except (GameErr × Gamestate) Gamestate :=
  let a1 : Bool := g.board.holes.1.any (fun h => decide (0 < h))
  let a2 : Bool := g.board.holes.2.any (fun h => decide (0 < h))
  if a1 && a2 then Except.ok g
  else
    let g1 := terminate g
    match sweep rs (List.range rs.NUMBER_OF_TOTAL_HOLES) g1.board 0 with
    | none => Except.error (GameErr.internalError, g1)
    | some (b2, _) => Except.error (GameErr.attributeError, { g1 with board := b2 })

/-- Source `Gamestate.play_move(move)` (lines 133-148, logical part): reject an
out-of-range move (`InvalidMove`, the source literal bound is 6), reject a
move whose `valid_mask` entry is false (`IllegalMove`; indexing past the mask
is a Python `IndexError`, modelled as `internalError`), then run `_play_move`
and `_check_terminal`. -/
def playMove (rs : Ruleset) (fuel : Nat) (g : Gamestate) (move : Nat) :
    Option (Except (GameErr × Gamestate) Gamestate) :=
  if 6 ≤ move then some (Except.error (GameErr.moveOutOfRange, g))
  else
    match (validMask g).get? move with
    | none => some (Except.error (GameErr.internalError, g))
    | some mv =>
      if mv = false then some (Except.error (GameErr.emptyHole, g))
      else
        match playMoveAux rs fuel g move with
        | none => none
        | some (Except.error e) => some (Except.error e)
        | some (Except.ok g2) => some (checkTerminal rs g2)

/-- Source `Gamestate.__str__`: the wire string sent to the external engine. -/
def gamestateStr (rs : Ruleset) (g : Gamestate) : String :=
  boardStr rs g.board ++ " " ++ toString g.current_player

/-- The gamestates observable by a caller that starts from a fresh
`Gamestate()` and issues `play_move` calls: both normally returned states and
the object state carried out by a propagating exception. -/
inductive Reach (rs : Ruleset) : Gamestate → Prop where
  | init : Reach rs (initGame rs)
  | ok {g g' : Gamestate} (h : Reach rs g) (fuel move : Nat)
      (hstep : playMove rs fuel g move = some (Except.ok g')) : Reach rs g'
  | err {g g' : Gamestate} (h : Reach rs g) (fuel move : Nat) (e : GameErr)
      (hstep : playMove rs fuel g move = some (Except.error (e, g'))) : Reach rs g'

/-- All seeds owned by a board, including the ones parked in the set-buffer. -/
def totalSeeds (b : Board) : Nat :=
  b.holes.1.sum + b.holes.2.sum + b.store.1 + b.store.2 + b.buffer

/-- The hole rows have the per-side length the ruleset addresses. -/
def Board.WF (rs : Ruleset) (b : Board) : Prop :=
  b.holes.1.length = rs.NUMBER_OF_HOLES_PER_SIDE ∧
  b.holes.2.length = rs.NUMBER_OF_HOLES_PER_SIDE

/-- The state invariant maintained by the engine: well-formed rows, empty
buffer, seed conservation, a 0/1 player, and — once the game is flagged
over — the displayed player is 0 and both rows have been swept empty. -/
def GInv (rs : Ruleset) (g : Gamestate) : Prop :=
  Board.WF rs g.board ∧
  g.board.buffer = 0 ∧
  totalSeeds g.board = 2 * rs.NUMBER_OF_HOLES_PER_SIDE * rs.seeds_per_hole ∧
  g.current_player < 2 ∧
  (g.game_over = true →
    g.current_player = 0 ∧ g.board.holes.1.sum = 0 ∧ g.board.holes.2.sum = 0)

/-- src/engine.py: `ENGINE_DICT`. -/
def ENGINE_DICT : List (String × Nat) :=
  [("human", 0), ("random", 1), ("min_max", 2), ("alpha_beta", 3),
   ("simple_threaded_ab", 4), ("heuristic_ab", 5), ("beta_alpha", 6)]

/-- Source `engine in ENGINE_DICT` / `ENGINE_DICT[engine]` (an unknown engine raises
`EngineSearchNotFound`, modelled as `none`). -/
def engineLookup (e : String) : Option Nat :=
  (ENGINE_DICT.find? (fun p => p.1 == e)).map (fun p => p.2)

/-- Source `EngineInterface.search` (lines 118-134, parameter normalisation): depth 0
forces the `random` engine; a negative depth forces `beta_alpha` and negates
the depth; the depth is then doubled and the pair
`(engine_index, transmitted_depth)` is written as `search {index} {depth}`. -/
def searchCmd (engine : String) (engine_depth : Int) : Option (Nat × Int) :=
  let e1 := if engine_depth = 0 then "random" else engine
  let p2 := if engine_depth < 0 then ("beta_alpha", -engine_depth) else (e1, engine_depth)
  let d3 := p2.2 * 2
  match engineLookup p2.1 with
  | none => none
  | some idx => some (idx, d3)

end Mancala

namespace Mancala

/-- Ruleset toggling relay sowing on (all other fields as default). -/
def rsRelay : Ruleset := { DefaultRuleset with do_relay_sowing := true }

/-- Ruleset with relay sowing on and captures off. -/
def rsRelayNC : Ruleset :=
  { DefaultRuleset with do_relay_sowing := true, allow_captures := false }

/-- Helper to build a mid-game state literal. -/
def mkG (cp : Nat) (h1 h2 : List Nat) (s1 s2 : Nat) (go : Bool) : Gamestate :=
  { current_player := cp
    board := { holes := (h1, h2), store := (s1, s2), buffer := 0 }
    game_over := go
    result := none
    score_1 := none
    score_2 := none }

/-- The `Gamestate` object state observable after a `play_move` call: the
returned state on normal return, the carried state when an exception
propagates. -/
def stateOf (r : Except (GameErr × Gamestate) Gamestate) : Gamestate :=
  match r with
  | Except.ok g => g
  | Except.error (_, g) => g

/-- C2 failing input: player 0 to move, one seed in the last hole; playing it
lands in the store and leaves the mover's row empty, triggering the terminal
branch. -/
def gC2 : Gamestate := mkG 0 [0, 0, 0, 0, 0, 1] [0, 0, 0, 0, 0, 2] 3 5 false

/-- The state carried out of `play_move gC2 5` by the `AttributeError`: the
board is swept (stores 4 and 7), the game is flagged over, but `result` and
the scores were never assigned. -/
def gC2T : Gamestate := mkG 0 [0, 0, 0, 0, 0, 0] [0, 0, 0, 0, 0, 0] 4 7 true

/-- C4 counterexample input: playing hole 0 lands one seed on the empty hole 1
(count 1 after landing), but hole 1's mirror (absolute index 11) is empty, so
`_do_capture` refuses and the move simply swaps the player. -/
def gC4c : Gamestate := mkG 0 [1, 0, 0, 0, 0, 0] [4, 4, 4, 4, 0, 4] 0 0 false

/-- The state `play_move gC4c 0` actually returns: the landing hole keeps its
single seed and the mover's store is unchanged. -/
def gC4r : Gamestate := mkG 1 [0, 1, 0, 0, 0, 0] [4, 4, 4, 4, 0, 4] 0 0 false

/-- C5 failing input (relay sowing on, captures off): playing hole 5 deposits
in the own store, hole 7 and hole 8, landing on the opponent-side hole 8 with
final count 2, which triggers a relay. -/
def gC5 : Gamestate := mkG 0 [0, 1, 0, 0, 0, 3] [0, 1, 0, 0, 0, 0] 0 0 false

/-- The state the relay move from `gC5` actually produces: the second segment
picked up the mover's own hole 1 (absolute index 8 mod 7 = 1, re-expanded on
the mover's side), not the landing hole 8, whose two seeds survive the move. -/
def gC5r : Gamestate := mkG 1 [0, 0, 1, 0, 0, 0] [1, 2, 0, 0, 0, 0] 1 0 false

/-- C7 failing input (relay sowing on): playing hole 5 lands on opponent-side
hole 8 with count 2; the relay re-enters from the mover's empty hole 1 and
then relays from the same empty hole forever. -/
def gC7 : Gamestate := mkG 0 [0, 0, 0, 0, 0, 3] [0, 1, 0, 0, 0, 0] 0 0 false

/-- The self-looping relay state reached after the first segment of the move
from `gC7`: relay from the empty hole 1 reproduces this exact state. -/
def gC7s : Gamestate := mkG 0 [0, 0, 0, 0, 0, 0] [1, 2, 0, 0, 0, 0] 1 0 false

/-- The terminal state reached from the initial position by the legal move
sequence 2, 5, 1, 2, 0, 3, 2, 4, 2, 5 (carried out of the final call by the
terminal-sweep `AttributeError`). -/
def gTerm : Gamestate := mkG 0 [0, 0, 0, 0, 0, 0] [0, 0, 0, 0, 0, 0] 41 7 true

/-- C6 witness input: a non-terminal position whose hole 0 is empty. -/
def gC6 : Gamestate := mkG 0 [0, 4, 4, 4, 4, 4] [4, 4, 4, 4, 4, 4] 0 0 false

/-- C4 witness input: playing hole 0 sows two seeds, landing on the empty
hole 2 whose mirror (absolute index 10) holds 3 seeds — a capture. -/
def gC4w : Gamestate := mkG 0 [2, 0, 0, 0, 0, 0] [4, 4, 4, 3, 4, 4] 0 0 false

end Mancala


namespace Mancala

attribute [ext] Board Gamestate

/-! Small list facts used for cell reasoning. -/

theorem list_getD_set_self (l : List Nat) (i v : Nat) (h : i < l.length) :
    (l.set i v).getD i 0 = v := by
  induction l generalizing i with
  | nil => simp at h
  | cons a t ih =>
    cases i with
    | zero => rfl
    | succ m => exact ih m (Nat.lt_of_succ_lt_succ h)

theorem list_getD_set_ne (l : List Nat) (i j v : Nat) (h : i ≠ j) :
    (l.set j v).getD i 0 = l.getD i 0 := by
  induction l generalizing i j with
  | nil => rfl
  | cons a t ih =>
    cases j with
    | zero =>
      cases i with
      | zero => exact absurd rfl h
      | succ m => rfl
    | succ m =>
      cases i with
      | zero => rfl
      | succ k => exact ih k m (fun hc => h (by omega))

theorem list_sum_set_add (l : List Nat) (i v : Nat) (h : i < l.length) :
    (l.set i v).sum + l.getD i 0 = l.sum + v := by
  induction l generalizing i with
  | nil => simp at h
  | cons a t ih =>
    cases i with
    | zero => simp [List.sum_cons]; omega
    | succ m =>
      have := ih m (Nat.lt_of_succ_lt_succ h)
      simp only [List.set, List.sum_cons]
      have hg : (a :: t).getD (m + 1) 0 = t.getD m 0 := rfl
      rw [hg]
      omega

theorem list_sum_zero_getD (l : List Nat) (h : l.sum = 0) (i : Nat) :
    l.getD i 0 = 0 := by
  induction l generalizing i with
  | nil => cases i <;> rfl
  | cons a t ih =>
    simp only [List.sum_cons] at h
    cases i with
    | zero => simpa using (by omega : a = 0)
    | succ m => exact ih (by omega) m

theorem list_getD_zero_sum (l : List Nat) (h : ∀ i, i < l.length → l.getD i 0 = 0) :
    l.sum = 0 := by
  induction l with
  | nil => rfl
  | cons a t ih =>
    have h0 : a = 0 := h 0 (by simp)
    have ht : t.sum = 0 := ih (fun i hi => h (i + 1) (by simpa using Nat.succ_lt_succ hi))
    simp [List.sum_cons, h0, ht]

/-! Range facts: a `bget`/`bset` that returns a value has an in-range index. -/

theorem bget_some_lt {rs : Ruleset} {b : Board} {i : Nat} {c : Nat}
    (h : bget rs b i = some c) : i < rs.NUMBER_OF_TOTAL_HOLES := by
  by_contra hc
  unfold bget at h
  rw [if_pos (Nat.le_of_not_lt hc)] at h
  exact Option.noConfusion h

theorem bset_some_lt {rs : Ruleset} {b : Board} {i v : Nat} {b' : Board}
    (h : bset rs b i v = some b') : i < rs.NUMBER_OF_TOTAL_HOLES := by
  by_contra hc
  unfold bset at h
  rw [if_pos (Nat.le_of_not_lt hc)] at h
  exact Option.noConfusion h

/-! Positional characterizations of `bget` and `bset` for valid rulesets:
the four absolute-index zones (side-0 holes, store 0, side-1 holes, store 1). -/

theorem bget_lo (rs : Ruleset) (hv : rs.Valid) (b : Board) {i : Nat}
    (hi : i < rs.NUMBER_OF_HOLES_PER_SIDE) :
    bget rs b i = some (b.holes.1.getD i 0) := by
  obtain ⟨hn, ht, hs1, hs2⟩ := hv
  have h1 : ¬ rs.NUMBER_OF_TOTAL_HOLES ≤ i := by omega
  have h2 : ¬ rs.PLAYER_TO_STORE_INDEX.1 < i := by omega
  have h3 : relOf rs i = i := Nat.mod_eq_of_lt (by omega)
  simp [bget, sideOf, h1, h2, h3, Nat.ne_of_lt hi]

theorem bget_store0 (rs : Ruleset) (hv : rs.Valid) (b : Board) {i : Nat}
    (hi : i = rs.NUMBER_OF_HOLES_PER_SIDE) :
    bget rs b i = some b.store.1 := by
  subst hi
  obtain ⟨hn, ht, hs1, hs2⟩ := hv
  have h1 : ¬ rs.NUMBER_OF_TOTAL_HOLES ≤ rs.NUMBER_OF_HOLES_PER_SIDE := by omega
  have h2 : ¬ rs.PLAYER_TO_STORE_INDEX.1 < rs.NUMBER_OF_HOLES_PER_SIDE := by omega
  have h3 : relOf rs rs.NUMBER_OF_HOLES_PER_SIDE = rs.NUMBER_OF_HOLES_PER_SIDE :=
    Nat.mod_eq_of_lt (by omega)
  simp [bget, sideOf, h1, h2, h3]

theorem bget_hi (rs : Ruleset) (hv : rs.Valid) (b : Board) {i : Nat}
    (hlo : rs.NUMBER_OF_HOLES_PER_SIDE + 1 ≤ i)
    (hhi : i ≤ 2 * rs.NUMBER_OF_HOLES_PER_SIDE) :
    bget rs b i =
      some (b.holes.2.getD (i - (rs.NUMBER_OF_HOLES_PER_SIDE + 1)) 0) := by
  obtain ⟨hn, ht, hs1, hs2⟩ := hv
  have h1 : ¬ rs.NUMBER_OF_TOTAL_HOLES ≤ i := by omega
  have h2 : rs.PLAYER_TO_STORE_INDEX.1 < i := by omega
  have h3 : relOf rs i = i - (rs.NUMBER_OF_HOLES_PER_SIDE + 1) := by
    unfold relOf
    rw [Nat.mod_eq_sub_mod hlo]
    exact Nat.mod_eq_of_lt (by omega)
  have h4 : i - (rs.NUMBER_OF_HOLES_PER_SIDE + 1) ≠ rs.NUMBER_OF_HOLES_PER_SIDE := by
    omega
  simp [bget, sideOf, h1, h2, h3, h4]

theorem bget_store1 (rs : Ruleset) (hv : rs.Valid) (b : Board) {i : Nat}
    (hi : i = 2 * rs.NUMBER_OF_HOLES_PER_SIDE + 1) :
    bget rs b i = some b.store.2 := by
  subst hi
  obtain ⟨hn, ht, hs1, hs2⟩ := hv
  have h1 : ¬ rs.NUMBER_OF_TOTAL_HOLES ≤ 2 * rs.NUMBER_OF_HOLES_PER_SIDE + 1 := by
    omega
  have h2 : rs.PLAYER_TO_STORE_INDEX.1 < 2 * rs.NUMBER_OF_HOLES_PER_SIDE + 1 := by
    omega
  have h3 : relOf rs (2 * rs.NUMBER_OF_HOLES_PER_SIDE + 1)
      = rs.NUMBER_OF_HOLES_PER_SIDE := by
    unfold relOf
    rw [Nat.mod_eq_sub_mod (by omega)]
    have h4 : 2 * rs.NUMBER_OF_HOLES_PER_SIDE + 1 - (rs.NUMBER_OF_HOLES_PER_SIDE + 1)
        = rs.NUMBER_OF_HOLES_PER_SIDE := by omega
    rw [h4]
    exact Nat.mod_eq_of_lt (by omega)
  simp [bget, sideOf, h1, h2, h3]

end Mancala

namespace Mancala

theorem bset_lo (rs : Ruleset) (hv : rs.Valid) (b : Board) {i : Nat}
    (hi : i < rs.NUMBER_OF_HOLES_PER_SIDE) (v : Nat) :
    bset rs b i v =
      if b.holes.1.getD i 0 + b.buffer < v then none
      else some { b with holes := (b.holes.1.set i v, b.holes.2),
                         buffer := b.buffer + b.holes.1.getD i 0 - v } := by
  obtain ⟨hn, ht, hs1, hs2⟩ := hv
  have h1 : ¬ rs.NUMBER_OF_TOTAL_HOLES ≤ i := by omega
  have h2 : ¬ rs.PLAYER_TO_STORE_INDEX.1 < i := by omega
  have h3 : relOf rs i = i := Nat.mod_eq_of_lt (by omega)
  have h4 : i ≠ rs.NUMBER_OF_HOLES_PER_SIDE := Nat.ne_of_lt hi
  by_cases hlt : b.holes.1[i]?.getD 0 < v
  · by_cases hbuf : b.buffer < v - b.holes.1[i]?.getD 0
    · simp [bset, sideOf, h3, writeCell, h1, h2, h4, hlt, hbuf,
        show b.holes.1[i]?.getD 0 + b.buffer < v by omega]
    · simp [bset, sideOf, h3, writeCell, h1, h2, h4, hlt, hbuf,
        show ¬ (b.holes.1[i]?.getD 0 + b.buffer < v) by omega, Board.mk.injEq]
      all_goals omega
  · simp [bset, sideOf, h3, writeCell, h1, h2, h4, hlt,
      show ¬ (b.holes.1[i]?.getD 0 + b.buffer < v) by omega, Board.mk.injEq]
    all_goals omega

theorem bset_store0 (rs : Ruleset) (hv : rs.Valid) (b : Board) {i : Nat}
    (hi : i = rs.NUMBER_OF_HOLES_PER_SIDE) (v : Nat) :
    bset rs b i v =
      if b.store.1 + b.buffer < v then none
      else some { b with store := (v, b.store.2),
                         buffer := b.buffer + b.store.1 - v } := by
  subst hi
  obtain ⟨hn, ht, hs1, hs2⟩ := hv
  have h1 : ¬ rs.NUMBER_OF_TOTAL_HOLES ≤ rs.NUMBER_OF_HOLES_PER_SIDE := by omega
  have h2 : ¬ rs.PLAYER_TO_STORE_INDEX.1 < rs.NUMBER_OF_HOLES_PER_SIDE := by omega
  have h3 : relOf rs rs.NUMBER_OF_HOLES_PER_SIDE = rs.NUMBER_OF_HOLES_PER_SIDE :=
    Nat.mod_eq_of_lt (by omega)
  by_cases hlt : b.store.1 < v
  · by_cases hbuf : b.buffer < v - b.store.1
    · simp [bset, sideOf, h3, writeCell, h1, h2, hlt, hbuf,
        show b.store.1 + b.buffer < v by omega]
    · simp [bset, sideOf, h3, writeCell, h1, h2, hlt, hbuf,
        show ¬ (b.store.1 + b.buffer < v) by omega, Board.mk.injEq]
      all_goals omega
  · simp [bset, sideOf, h3, writeCell, h1, h2, hlt,
      show ¬ (b.store.1 + b.buffer < v) by omega, Board.mk.injEq]
    all_goals omega

theorem bset_hi (rs : Ruleset) (hv : rs.Valid) (b : Board) {i : Nat}
    (hlo : rs.NUMBER_OF_HOLES_PER_SIDE + 1 ≤ i)
    (hhi : i ≤ 2 * rs.NUMBER_OF_HOLES_PER_SIDE) (v : Nat) :
    bset rs b i v =
      if b.holes.2.getD (i - (rs.NUMBER_OF_HOLES_PER_SIDE + 1)) 0 + b.buffer < v
      then none
      else some { b with
        holes := (b.holes.1, b.holes.2.set (i - (rs.NUMBER_OF_HOLES_PER_SIDE + 1)) v),
        buffer := b.buffer + b.holes.2.getD (i - (rs.NUMBER_OF_HOLES_PER_SIDE + 1)) 0 - v } := by
  obtain ⟨hn, ht, hs1, hs2⟩ := hv
  have h1 : ¬ rs.NUMBER_OF_TOTAL_HOLES ≤ i := by omega
  have h2 : rs.PLAYER_TO_STORE_INDEX.1 < i := by omega
  have h3 : relOf rs i = i - (rs.NUMBER_OF_HOLES_PER_SIDE + 1) := by
    unfold relOf
    rw [Nat.mod_eq_sub_mod (by omega)]
    exact Nat.mod_eq_of_lt (by omega)
  have h4 : i - (rs.NUMBER_OF_HOLES_PER_SIDE + 1) ≠ rs.NUMBER_OF_HOLES_PER_SIDE := by
    omega
  by_cases hlt : b.holes.2[i - (rs.NUMBER_OF_HOLES_PER_SIDE + 1)]?.getD 0 < v
  · by_cases hbuf : b.buffer < v - b.holes.2[i - (rs.NUMBER_OF_HOLES_PER_SIDE + 1)]?.getD 0
    · simp [bset, sideOf, h3, writeCell, h1, h2, h4, hlt, hbuf,
        show b.holes.2[i - (rs.NUMBER_OF_HOLES_PER_SIDE + 1)]?.getD 0 + b.buffer < v by omega]
    · simp [bset, sideOf, h3, writeCell, h1, h2, h4, hlt, hbuf,
        show ¬ (b.holes.2[i - (rs.NUMBER_OF_HOLES_PER_SIDE + 1)]?.getD 0 + b.buffer < v) by omega,
        Board.mk.injEq]
      all_goals omega
  · simp [bset, sideOf, h3, writeCell, h1, h2, h4, hlt,
      show ¬ (b.holes.2[i - (rs.NUMBER_OF_HOLES_PER_SIDE + 1)]?.getD 0 + b.buffer < v) by omega,
      Board.mk.injEq]
    all_goals omega

theorem bset_store1 (rs : Ruleset) (hv : rs.Valid) (b : Board) {i : Nat}
    (hi : i = 2 * rs.NUMBER_OF_HOLES_PER_SIDE + 1) (v : Nat) :
    bset rs b i v =
      if b.store.2 + b.buffer < v then none
      else some { b with store := (b.store.1, v),
                         buffer := b.buffer + b.store.2 - v } := by
  subst hi
  obtain ⟨hn, ht, hs1, hs2⟩ := hv
  have h1 : ¬ rs.NUMBER_OF_TOTAL_HOLES ≤ 2 * rs.NUMBER_OF_HOLES_PER_SIDE + 1 := by
    omega
  have h2 : rs.PLAYER_TO_STORE_INDEX.1 < 2 * rs.NUMBER_OF_HOLES_PER_SIDE + 1 := by
    omega
  have h3 : relOf rs (2 * rs.NUMBER_OF_HOLES_PER_SIDE + 1)
      = rs.NUMBER_OF_HOLES_PER_SIDE := by
    unfold relOf
    rw [Nat.mod_eq_sub_mod (by omega)]
    have h4 : 2 * rs.NUMBER_OF_HOLES_PER_SIDE + 1 - (rs.NUMBER_OF_HOLES_PER_SIDE + 1)
        = rs.NUMBER_OF_HOLES_PER_SIDE := by omega
    rw [h4]
    exact Nat.mod_eq_of_lt (by omega)
  by_cases hlt : b.store.2 < v
  · by_cases hbuf : b.buffer < v - b.store.2
    · simp [bset, sideOf, h3, writeCell, h1, h2, hlt, hbuf,
        show b.store.2 + b.buffer < v by omega]
    · simp [bset, sideOf, h3, writeCell, h1, h2, hlt, hbuf,
        show ¬ (b.store.2 + b.buffer < v) by omega, Board.mk.injEq]
      all_goals omega
  · simp [bset, sideOf, h3, writeCell, h1, h2, hlt,
      show ¬ (b.store.2 + b.buffer < v) by omega, Board.mk.injEq]
    all_goals omega

end Mancala

namespace Mancala

/-- The absolute index space of a valid ruleset splits into the four zones:
side-0 holes, store 0, side-1 holes, store 1. -/
theorem zone_split (rs : Ruleset) (hv : rs.Valid) {i : Nat}
    (hi : i < rs.NUMBER_OF_TOTAL_HOLES) :
    i < rs.NUMBER_OF_HOLES_PER_SIDE ∨ i = rs.NUMBER_OF_HOLES_PER_SIDE ∨
    (rs.NUMBER_OF_HOLES_PER_SIDE + 1 ≤ i ∧ i ≤ 2 * rs.NUMBER_OF_HOLES_PER_SIDE) ∨
    i = 2 * rs.NUMBER_OF_HOLES_PER_SIDE + 1 := by
  obtain ⟨hn, ht, hs1, hs2⟩ := hv
  omega

/-- A successful `bset` conserves the total seed count (cells plus buffer),
preserves row lengths, writes the requested value into the addressed cell,
and moves exactly the count difference through the buffer. -/
theorem bset_props (rs : Ruleset) (hv : rs.Valid) {b : Board} {i v : Nat} {b' : Board}
    (hWF : Board.WF rs b) (h : bset rs b i v = some b') :
    totalSeeds b' = totalSeeds b ∧ Board.WF rs b' ∧ bget rs b' i = some v ∧
    b'.buffer + v = b.buffer + bgetD rs b i := by
  have hlt : i < rs.NUMBER_OF_TOTAL_HOLES := bset_some_lt h
  obtain ⟨hw1, hw2⟩ := hWF
  rcases zone_split rs hv hlt with hz | hz | ⟨hz1, hz2⟩ | hz
  · rw [bset_lo rs hv b hz v] at h
    by_cases hc : b.holes.1.getD i 0 + b.buffer < v
    · rw [if_pos hc] at h; exact Option.noConfusion h
    · rw [if_neg hc] at h
      injection h with h
      subst h
      have hlen : i < b.holes.1.length := by omega
      have hs := list_sum_set_add b.holes.1 i v hlen
      refine ⟨?_, ⟨by simpa using hw1, hw2⟩, ?_, ?_⟩
      · simp only [totalSeeds]; omega
      · rw [bget_lo rs hv _ hz, list_getD_set_self b.holes.1 i v hlen]
      · simp only [bgetD, bget_lo rs hv b hz, Option.getD_some]; omega
  · rw [bset_store0 rs hv b hz v] at h
    by_cases hc : b.store.1 + b.buffer < v
    · rw [if_pos hc] at h; exact Option.noConfusion h
    · rw [if_neg hc] at h
      injection h with h
      subst h
      refine ⟨?_, ⟨hw1, hw2⟩, ?_, ?_⟩
      · simp only [totalSeeds]; omega
      · rw [bget_store0 rs hv _ hz]
      · simp only [bgetD, bget_store0 rs hv b hz, Option.getD_some]; omega
  · rw [bset_hi rs hv b hz1 hz2 v] at h
    by_cases hc : b.holes.2.getD (i - (rs.NUMBER_OF_HOLES_PER_SIDE + 1)) 0 + b.buffer < v
    · rw [if_pos hc] at h; exact Option.noConfusion h
    · rw [if_neg hc] at h
      injection h with h
      subst h
      have hlen : i - (rs.NUMBER_OF_HOLES_PER_SIDE + 1) < b.holes.2.length := by omega
      have hs := list_sum_set_add b.holes.2 (i - (rs.NUMBER_OF_HOLES_PER_SIDE + 1)) v hlen
      refine ⟨?_, ⟨hw1, by simpa using hw2⟩, ?_, ?_⟩
      · simp only [totalSeeds]; omega
      · rw [bget_hi rs hv _ hz1 hz2, list_getD_set_self b.holes.2 _ v hlen]
      · simp only [bgetD, bget_hi rs hv b hz1 hz2, Option.getD_some]; omega
  · rw [bset_store1 rs hv b hz v] at h
    by_cases hc : b.store.2 + b.buffer < v
    · rw [if_pos hc] at h; exact Option.noConfusion h
    · rw [if_neg hc] at h
      injection h with h
      subst h
      refine ⟨?_, ⟨hw1, hw2⟩, ?_, ?_⟩
      · simp only [totalSeeds]; omega
      · rw [bget_store1 rs hv _ hz]
      · simp only [bgetD, bget_store1 rs hv b hz, Option.getD_some]; omega

/-- Source `bset` succeeds exactly when the buffer can cover the requested growth. -/
theorem bset_succeeds (rs : Ruleset) (hv : rs.Valid) (b : Board) {i : Nat} (v : Nat)
    (hi : i < rs.NUMBER_OF_TOTAL_HOLES) (hcond : v ≤ bgetD rs b i + b.buffer) :
    ∃ b', bset rs b i v = some b' := by
  rcases zone_split rs hv hi with hz | hz | ⟨hz1, hz2⟩ | hz
  · rw [bset_lo rs hv b hz v]
    rw [show bgetD rs b i = b.holes.1.getD i 0 by
      simp [bgetD, bget_lo rs hv b hz]] at hcond
    rw [if_neg (by omega)]
    exact ⟨_, rfl⟩
  · rw [bset_store0 rs hv b hz v]
    rw [show bgetD rs b i = b.store.1 by
      simp [bgetD, bget_store0 rs hv b hz]] at hcond
    rw [if_neg (by omega)]
    exact ⟨_, rfl⟩
  · rw [bset_hi rs hv b hz1 hz2 v]
    rw [show bgetD rs b i = b.holes.2.getD (i - (rs.NUMBER_OF_HOLES_PER_SIDE + 1)) 0 by
      simp [bgetD, bget_hi rs hv b hz1 hz2]] at hcond
    rw [if_neg (by omega)]
    exact ⟨_, rfl⟩
  · rw [bset_store1 rs hv b hz v]
    rw [show bgetD rs b i = b.store.2 by
      simp [bgetD, bget_store1 rs hv b hz]] at hcond
    rw [if_neg (by omega)]
    exact ⟨_, rfl⟩

end Mancala

namespace Mancala

/-- Source `self._board[i] += d` conserves seeds, preserves row lengths, consumes
exactly `d` buffer seeds, and leaves the cell increased by `d`. -/
theorem badd_props (rs : Ruleset) (hv : rs.Valid) {b : Board} {i d : Nat} {b2 : Board}
    (hWF : Board.WF rs b) (h : badd rs b i d = some b2) :
    totalSeeds b2 = totalSeeds b ∧ Board.WF rs b2 ∧ b2.buffer + d = b.buffer ∧
    i < rs.NUMBER_OF_TOTAL_HOLES ∧ bget rs b2 i = some (bgetD rs b i + d) := by
  unfold badd at h
  cases hg : bget rs b i with
  | none => rw [hg] at h; exact Option.noConfusion h
  | some c =>
    rw [hg] at h
    have hprops := bset_props rs hv hWF h
    have hD : bgetD rs b i = c := by simp [bgetD, hg]
    refine ⟨hprops.1, hprops.2.1, ?_, bget_some_lt hg, ?_⟩
    · have := hprops.2.2.2
      rw [hD] at this
      omega
    · rw [hD]
      exact hprops.2.2.1

/-- The sowing loop conserves seeds, preserves row lengths, consumes exactly
one buffer seed per deposited seed, is the identity on an empty hand, and for
a nonempty hand lands on an in-range index distinct from the opponent's
store. -/
theorem sow_spec (rs : Ruleset) (hv : rs.Valid) (player : Nat) :
    ∀ (seeds : Nat) (b : Board) (idx : Nat) (fc : Bool) (b' : Board) (l : Nat) (fc' : Bool),
      Board.WF rs b →
      sow rs player seeds b idx fc = some (b', l, fc') →
      totalSeeds b' = totalSeeds b ∧ Board.WF rs b' ∧ b'.buffer + seeds = b.buffer ∧
      (seeds = 0 → b' = b ∧ l = idx ∧ fc' = fc) ∧
      (0 < seeds → l ≠ storeIdx rs (1 - player) ∧ l < rs.NUMBER_OF_TOTAL_HOLES) := by
  intro seeds
  induction seeds with
  | zero =>
    intro b idx fc b' l fc' hWF hsow
    simp only [sow, Option.some.injEq, Prod.mk.injEq] at hsow
    obtain ⟨h1, h2, h3⟩ := hsow
    subst h1; subst h2; subst h3
    exact ⟨rfl, hWF, rfl, fun _ => ⟨rfl, rfl, rfl⟩, fun h => absurd h (by omega)⟩
  | succ s ih =>
    intro b idx fc b' l fc' hWF hsow
    simp only [sow] at hsow
    by_cases hj : nextIdx rs idx = storeIdx rs (1 - player)
    · rw [if_pos hj] at hsow
      by_cases hk : nextIdx rs (nextIdx rs idx) = storeIdx rs (1 - player)
      · rw [if_pos hk] at hsow; exact Option.noConfusion hsow
      · rw [if_neg hk] at hsow
        cases hb : badd rs b (nextIdx rs (nextIdx rs idx)) 1 with
        | none => rw [hb] at hsow; exact Option.noConfusion hsow
        | some b2 =>
          rw [hb] at hsow
          have hba := badd_props rs hv hWF hb
          have hrec := ih b2 (nextIdx rs (nextIdx rs idx)) _ b' l fc' hba.2.1 hsow
          refine ⟨by omega, hrec.2.1, by omega, fun h0 => absurd h0 (by omega), fun _ => ?_⟩
          rcases Nat.eq_zero_or_pos s with hs0 | hs0
          · subst hs0
            obtain ⟨hb', hl, hfc⟩ := hrec.2.2.2.1 rfl
            subst hl
            exact ⟨hk, hba.2.2.2.1⟩
          · exact hrec.2.2.2.2 hs0
    · rw [if_neg hj] at hsow
      cases hb : badd rs b (nextIdx rs idx) 1 with
      | none => rw [hb] at hsow; exact Option.noConfusion hsow
      | some b2 =>
        rw [hb] at hsow
        have hba := badd_props rs hv hWF hb
        have hrec := ih b2 (nextIdx rs idx) _ b' l fc' hba.2.1 hsow
        refine ⟨by omega, hrec.2.1, by omega, fun h0 => absurd h0 (by omega), fun _ => ?_⟩
        rcases Nat.eq_zero_or_pos s with hs0 | hs0
        · subst hs0
          obtain ⟨hb', hl, hfc⟩ := hrec.2.2.2.1 rfl
          subst hl
          exact ⟨hj, hba.2.2.2.1⟩
        · exact hrec.2.2.2.2 hs0

end Mancala

namespace Mancala

/-- An in-range `bget` always yields a value. -/
theorem bget_eq_some (rs : Ruleset) (b : Board) {i : Nat}
    (hi : i < rs.NUMBER_OF_TOTAL_HOLES) :
    bget rs b i = some (bgetD rs b i) := by
  have h1 : ¬ rs.NUMBER_OF_TOTAL_HOLES ≤ i := Nat.not_le.mpr hi
  simp only [bgetD, bget, h1, if_false]
  split <;> simp

/-- An in-range `+=` with enough buffered seeds succeeds. -/
theorem badd_succeeds (rs : Ruleset) (hv : rs.Valid) (b : Board) {i : Nat} (d : Nat)
    (hi : i < rs.NUMBER_OF_TOTAL_HOLES) (hd : d ≤ b.buffer) :
    ∃ b2, badd rs b i d = some b2 := by
  unfold badd
  rw [bget_eq_some rs b hi]
  exact bset_succeeds rs hv b _ hi (by omega)

/-- A `bset` leaves every other in-range cell unchanged. -/
theorem bset_frame (rs : Ruleset) (hv : rs.Valid) {b : Board} {i v : Nat} {b' : Board}
    (h : bset rs b i v = some b') {j : Nat} (hj : j < rs.NUMBER_OF_TOTAL_HOLES)
    (hne : j ≠ i) : bget rs b' j = bget rs b j := by
  have hi : i < rs.NUMBER_OF_TOTAL_HOLES := bset_some_lt h
  have hn0 : 0 < rs.NUMBER_OF_HOLES_PER_SIDE := hv.1
  rcases zone_split rs hv hi with hzi | hzi | ⟨hzi1, hzi2⟩ | hzi
  · rw [bset_lo rs hv b hzi v] at h
    by_cases hc : b.holes.1.getD i 0 + b.buffer < v
    · rw [if_pos hc] at h; exact Option.noConfusion h
    · rw [if_neg hc] at h
      injection h with h
      subst h
      rcases zone_split rs hv hj with hzj | hzj | ⟨hzj1, hzj2⟩ | hzj
      · rw [bget_lo rs hv _ hzj, bget_lo rs hv b hzj]
        exact congrArg some (list_getD_set_ne b.holes.1 j i v hne)
      · rw [bget_store0 rs hv _ hzj, bget_store0 rs hv b hzj]
      · rw [bget_hi rs hv _ hzj1 hzj2, bget_hi rs hv b hzj1 hzj2]
      · rw [bget_store1 rs hv _ hzj, bget_store1 rs hv b hzj]
  · rw [bset_store0 rs hv b hzi v] at h
    by_cases hc : b.store.1 + b.buffer < v
    · rw [if_pos hc] at h; exact Option.noConfusion h
    · rw [if_neg hc] at h
      injection h with h
      subst h
      rcases zone_split rs hv hj with hzj | hzj | ⟨hzj1, hzj2⟩ | hzj
      · rw [bget_lo rs hv _ hzj, bget_lo rs hv b hzj]
      · exact absurd (hzj.trans hzi.symm) hne
      · rw [bget_hi rs hv _ hzj1 hzj2, bget_hi rs hv b hzj1 hzj2]
      · rw [bget_store1 rs hv _ hzj, bget_store1 rs hv b hzj]
  · rw [bset_hi rs hv b hzi1 hzi2 v] at h
    by_cases hc : b.holes.2.getD (i - (rs.NUMBER_OF_HOLES_PER_SIDE + 1)) 0 + b.buffer < v
    · rw [if_pos hc] at h; exact Option.noConfusion h
    · rw [if_neg hc] at h
      injection h with h
      subst h
      rcases zone_split rs hv hj with hzj | hzj | ⟨hzj1, hzj2⟩ | hzj
      · rw [bget_lo rs hv _ hzj, bget_lo rs hv b hzj]
      · rw [bget_store0 rs hv _ hzj, bget_store0 rs hv b hzj]
      · rw [bget_hi rs hv _ hzj1 hzj2, bget_hi rs hv b hzj1 hzj2]
        have hrr : j - (rs.NUMBER_OF_HOLES_PER_SIDE + 1)
            ≠ i - (rs.NUMBER_OF_HOLES_PER_SIDE + 1) := by omega
        exact congrArg some (list_getD_set_ne b.holes.2 _ _ v hrr)
      · rw [bget_store1 rs hv _ hzj, bget_store1 rs hv b hzj]
  · rw [bset_store1 rs hv b hzi v] at h
    by_cases hc : b.store.2 + b.buffer < v
    · rw [if_pos hc] at h; exact Option.noConfusion h
    · rw [if_neg hc] at h
      injection h with h
      subst h
      rcases zone_split rs hv hj with hzj | hzj | ⟨hzj1, hzj2⟩ | hzj
      · rw [bget_lo rs hv _ hzj, bget_lo rs hv b hzj]
      · rw [bget_store0 rs hv _ hzj, bget_store0 rs hv b hzj]
      · rw [bget_hi rs hv _ hzj1 hzj2, bget_hi rs hv b hzj1 hzj2]
      · exact absurd (hzj.trans hzi.symm) hne

/-- A `+=` leaves every other in-range cell unchanged. -/
theorem badd_frame (rs : Ruleset) (hv : rs.Valid) {b : Board} {i d : Nat} {b2 : Board}
    (h : badd rs b i d = some b2) {j : Nat} (hj : j < rs.NUMBER_OF_TOTAL_HOLES)
    (hne : j ≠ i) : bget rs b2 j = bget rs b j := by
  unfold badd at h
  cases hg : bget rs b i with
  | none => rw [hg] at h; exact Option.noConfusion h
  | some c =>
    rw [hg] at h
    exact bset_frame rs hv h hj hne

end Mancala

namespace Mancala

/-- The sweep succeeds on in-range indices when the buffer equals the running
accumulator, conserving seeds and keeping the buffer-accumulator equality. -/
theorem sweep_ok (rs : Ruleset) (hv : rs.Valid) :
    ∀ (l : List Nat) (b : Board) (acc : Nat),
      (∀ i ∈ l, i < rs.NUMBER_OF_TOTAL_HOLES) → Board.WF rs b → b.buffer = acc →
      ∃ b2 acc2, sweep rs l b acc = some (b2, acc2) ∧
        totalSeeds b2 = totalSeeds b ∧ Board.WF rs b2 ∧ b2.buffer = acc2 := by
  intro l
  induction l with
  | nil =>
    intro b acc _ hWF hbuf
    exact ⟨b, acc, rfl, rfl, hWF, hbuf⟩
  | cons i is ih =>
    intro b acc hmem hWF hbuf
    have hi : i < rs.NUMBER_OF_TOTAL_HOLES := hmem i (List.mem_cons_self i is)
    have hmem' : ∀ k ∈ is, k < rs.NUMBER_OF_TOTAL_HOLES :=
      fun k hk => hmem k (List.mem_cons_of_mem i hk)
    by_cases hst : i = rs.PLAYER_TO_STORE_INDEX.1 ∨ i = rs.PLAYER_TO_STORE_INDEX.2
    · obtain ⟨bA, hbA⟩ := badd_succeeds rs hv b acc hi (by omega)
      have hp := badd_props rs hv hWF hbA
      obtain ⟨b2, acc2, hs, hc, hw, hb2⟩ := ih bA 0 hmem' hp.2.1 (by omega)
      refine ⟨b2, acc2, ?_, by omega, hw, hb2⟩
      simp only [sweep, if_pos hst, hbA]
      exact hs
    · have hgg := bget_eq_some (b := b) rs hi
      obtain ⟨bA, hbA⟩ := bset_succeeds rs hv b 0 hi (by omega)
      have hp := bset_props rs hv hWF hbA
      obtain ⟨b2, acc2, hs, hc, hw, hb2⟩ :=
        ih bA (acc + bgetD rs b i) hmem' hp.2.1 (by omega)
      refine ⟨b2, acc2, ?_, by omega, hw, hb2⟩
      simp only [sweep, if_neg hst, hgg, hbA]
      exact hs

/-- Sweeping a concatenation is sweeping the two parts in sequence. -/
theorem sweep_append (rs : Ruleset) :
    ∀ (l1 l2 : List Nat) (b : Board) (acc : Nat),
      sweep rs (l1 ++ l2) b acc =
        match sweep rs l1 b acc with
        | none => none
        | some (b1, a1) => sweep rs l2 b1 a1 := by
  intro l1
  induction l1 with
  | nil => intro l2 b acc; rfl
  | cons i is ih =>
    intro l2 b acc
    by_cases hst : i = rs.PLAYER_TO_STORE_INDEX.1 ∨ i = rs.PLAYER_TO_STORE_INDEX.2
    · simp only [List.cons_append, sweep, if_pos hst]
      cases badd rs b i acc with
      | none => rfl
      | some b2 => exact ih l2 b2 0
    · simp only [List.cons_append, sweep, if_neg hst]
      cases bget rs b i with
      | none => rfl
      | some c =>
        cases bset rs b i 0 with
        | none => rfl
        | some b2 => exact ih l2 b2 (acc + c)

/-- After a sweep, every swept non-store cell reads zero, and non-store cells
that already read zero stay zero. -/
theorem sweep_zeroes (rs : Ruleset) (hv : rs.Valid) :
    ∀ (l : List Nat) (b : Board) (acc : Nat) (b2 : Board) (acc2 : Nat),
      Board.WF rs b →
      sweep rs l b acc = some (b2, acc2) →
      ∀ j, j < rs.NUMBER_OF_TOTAL_HOLES →
        j ≠ rs.PLAYER_TO_STORE_INDEX.1 → j ≠ rs.PLAYER_TO_STORE_INDEX.2 →
        (j ∈ l ∨ bget rs b j = some 0) → bget rs b2 j = some 0 := by
  intro l
  induction l with
  | nil =>
    intro b acc b2 acc2 _ hs j hj _ _ hcase
    simp only [sweep, Option.some.injEq, Prod.mk.injEq] at hs
    obtain ⟨h1, _⟩ := hs
    subst h1
    rcases hcase with hmem | hz
    · exact absurd hmem (List.not_mem_nil j)
    · exact hz
  | cons i is ih =>
    intro b acc b2 acc2 hWF hs j hj hjs1 hjs2 hcase
    simp only [sweep] at hs
    by_cases hst : i = rs.PLAYER_TO_STORE_INDEX.1 ∨ i = rs.PLAYER_TO_STORE_INDEX.2
    · rw [if_pos hst] at hs
      cases hbA : badd rs b i acc with
      | none => rw [hbA] at hs; exact Option.noConfusion hs
      | some bA =>
        rw [hbA] at hs
        have hWFA := (badd_props rs hv hWF hbA).2.1
        have hji : j ≠ i := by
          intro hji
          rcases hst with h | h <;> subst hji <;> [exact hjs1 h; exact hjs2 h]
        rcases hcase with hmem | hz
        · rcases List.mem_cons.mp hmem with hji' | hmem'
          · exact absurd hji' hji
          · exact ih bA 0 b2 acc2 hWFA hs j hj hjs1 hjs2 (Or.inl hmem')
        · refine ih bA 0 b2 acc2 hWFA hs j hj hjs1 hjs2 (Or.inr ?_)
          rw [badd_frame rs hv hbA hj hji]
          exact hz
    · rw [if_neg hst] at hs
      cases hg : bget rs b i with
      | none => rw [hg] at hs; exact Option.noConfusion hs
      | some c =>
        rw [hg] at hs
        cases hbA : bset rs b i 0 with
        | none => rw [hbA] at hs; exact Option.noConfusion hs
        | some bA =>
          rw [hbA] at hs
          have hpA := bset_props rs hv hWF hbA
          by_cases hji : j = i
          · subst hji
            refine ih bA (acc + c) b2 acc2 hpA.2.1 hs j hj hjs1 hjs2 (Or.inr ?_)
            exact hpA.2.2.1
          · rcases hcase with hmem | hz
            · rcases List.mem_cons.mp hmem with hji' | hmem'
              · exact absurd hji' hji
              · exact ih bA (acc + c) b2 acc2 hpA.2.1 hs j hj hjs1 hjs2 (Or.inl hmem')
            · refine ih bA (acc + c) b2 acc2 hpA.2.1 hs j hj hjs1 hjs2 (Or.inr ?_)
              rw [bset_frame rs hv hbA hj hji]
              exact hz

end Mancala

namespace Mancala

/-- The full terminal sweep over all absolute indices: succeeds from an empty
buffer, conserves seeds, ends with an empty buffer and accumulator, and leaves
both hole rows entirely empty. -/
theorem sweepFull (rs : Ruleset) (hv : rs.Valid) (b : Board)
    (hWF : Board.WF rs b) (hbuf : b.buffer = 0) :
    ∃ b2, sweep rs (List.range rs.NUMBER_OF_TOTAL_HOLES) b 0 = some (b2, 0) ∧
      totalSeeds b2 = totalSeeds b ∧ Board.WF rs b2 ∧ b2.buffer = 0 ∧
      b2.holes.1.sum = 0 ∧ b2.holes.2.sum = 0 := by
  have hv' := hv
  obtain ⟨hn, ht, hst1, hst2⟩ := hv'
  have hr : List.range rs.NUMBER_OF_TOTAL_HOLES
      = List.range (2 * rs.NUMBER_OF_HOLES_PER_SIDE + 1)
        ++ [2 * rs.NUMBER_OF_HOLES_PER_SIDE + 1] := by
    rw [ht, show 2 * (rs.NUMBER_OF_HOLES_PER_SIDE + 1)
        = (2 * rs.NUMBER_OF_HOLES_PER_SIDE + 1) + 1 by ring]
    exact List.range_succ _
  obtain ⟨b1, a1, hs1eq, hc1, hw1, hb1⟩ :=
    sweep_ok rs hv (List.range (2 * rs.NUMBER_OF_HOLES_PER_SIDE + 1)) b 0
      (fun i hi => by rw [List.mem_range] at hi; omega) hWF hbuf
  have hiF : 2 * rs.NUMBER_OF_HOLES_PER_SIDE + 1 < rs.NUMBER_OF_TOTAL_HOLES := by
    omega
  obtain ⟨bF, hbF⟩ := badd_succeeds rs hv b1 a1 hiF (by omega)
  have hpF := badd_props rs hv hw1 hbF
  have hcomb : sweep rs (List.range rs.NUMBER_OF_TOTAL_HOLES) b 0 = some (bF, 0) := by
    rw [hr, sweep_append rs _ _ b 0, hs1eq]
    simp only [sweep]
    rw [if_pos (Or.inr hst2.symm), hbF]
  have hz := sweep_zeroes rs hv (List.range rs.NUMBER_OF_TOTAL_HOLES) b 0 bF 0 hWF hcomb
  have hzj : ∀ j, j < rs.NUMBER_OF_TOTAL_HOLES → j ≠ rs.NUMBER_OF_HOLES_PER_SIDE →
      j ≠ 2 * rs.NUMBER_OF_HOLES_PER_SIDE + 1 → bget rs bF j = some 0 := by
    intro j hj h1 h2
    exact hz j hj (by omega) (by omega) (Or.inl (List.mem_range.mpr hj))
  obtain ⟨hwF1, hwF2⟩ := hpF.2.1
  have hsum1 : bF.holes.1.sum = 0 := by
    apply list_getD_zero_sum
    intro r hr'
    rw [hwF1] at hr'
    have hbg := hzj r (by omega) (by omega) (by omega)
    rw [bget_lo rs hv bF hr'] at hbg
    injection hbg
  have hsum2 : bF.holes.2.sum = 0 := by
    apply list_getD_zero_sum
    intro r hr'
    rw [hwF2] at hr'
    have hbg := hzj (r + (rs.NUMBER_OF_HOLES_PER_SIDE + 1)) (by omega) (by omega) (by omega)
    rw [bget_hi rs hv bF (by omega) (by omega)] at hbg
    rw [show r + (rs.NUMBER_OF_HOLES_PER_SIDE + 1) - (rs.NUMBER_OF_HOLES_PER_SIDE + 1)
        = r by omega] at hbg
    injection hbg
  exact ⟨bF, hcomb, by omega, ⟨hwF1, hwF2⟩, by omega, hsum1, hsum2⟩

end Mancala

namespace Mancala

/-- Source `_do_capture` preserves well-formedness, leaves the buffer empty again,
conserves seeds, keeps the player in range and does not touch the game-over
flag. -/
theorem doCapture_pres (rs : Ruleset) (hv : rs.Valid) {g : Gamestate} {hIdx side : Nat}
    {g3 : Gamestate} {flag : Bool}
    (hWF : Board.WF rs g.board) (hbuf : g.board.buffer = 0)
    (hcap : doCapture rs g hIdx side = some (g3, flag)) :
    (Board.WF rs g3.board ∧ g3.board.buffer = 0 ∧
     totalSeeds g3.board = totalSeeds g.board ∧ g3.current_player < 2 ∧
     g3.game_over = g.game_over) ∨ g3 = g := by
  simp only [doCapture] at hcap
  cases hg : bget rs g.board (2 * rs.PLAYER_TO_STORE_INDEX.1 - hIdx) with
  | none => simp only [hg] at hcap; exact Option.noConfusion hcap
  | some seeds =>
    simp only [hg] at hcap
    by_cases hcond : isValidMove rs g hIdx = true ∧ seeds ≠ 0
    · rw [if_pos hcond] at hcap
      have hD : bgetD rs g.board (2 * rs.PLAYER_TO_STORE_INDEX.1 - hIdx) = seeds := by
        simp [bgetD, hg]
      cases hbA : bset rs (nextPlayer g).board (2 * rs.PLAYER_TO_STORE_INDEX.1 - hIdx) 0 with
      | none => simp only [hbA] at hcap; exact Option.noConfusion hcap
      | some bA =>
        simp only [hbA] at hcap
        have hpA := bset_props rs hv (b := (nextPlayer g).board) hWF hbA
        have hbufA : bA.buffer = seeds := by
          have := hpA.2.2.2
          simp only [nextPlayer] at this
          rw [hD] at this
          omega
        by_cases hcb : rs.capture_both = true
        · rw [if_pos hcb] at hcap
          cases hgA : bget rs bA hIdx with
          | none => simp only [hgA] at hcap; exact Option.noConfusion hcap
          | some cnt =>
            simp only [hgA] at hcap
            have hDA : bgetD rs bA hIdx = cnt := by simp [bgetD, hgA]
            cases hbB : bset rs bA hIdx 0 with
            | none => simp only [hbB] at hcap; exact Option.noConfusion hcap
            | some bB =>
              simp only [hbB] at hcap
              have hpB := bset_props rs hv hpA.2.1 hbB
              have hbufB : bB.buffer = seeds + cnt := by
                have := hpB.2.2.2
                rw [hDA] at this
                omega
              cases hbC : badd rs bB (storeIdx rs side) (seeds + cnt) with
              | none => simp only [hbC] at hcap; exact Option.noConfusion hcap
              | some bC =>
                simp only [hbC] at hcap
                have hpC := badd_props rs hv hpB.2.1 hbC
                simp only [Option.some.injEq, Prod.mk.injEq] at hcap
                obtain ⟨h1, _⟩ := hcap
                subst h1
                have hnp1 : totalSeeds (nextPlayer g).board = totalSeeds g.board := rfl
                refine Or.inl ⟨hpC.2.1, ?_, ?_, ?_, rfl⟩
                · show bC.buffer = 0
                  have h2 := hpC.2.2.1
                  omega
                · show totalSeeds bC = totalSeeds g.board
                  have h2 := hpA.1
                  have h3 := hpB.1
                  have h4 := hpC.1
                  omega
                · show (nextPlayer g).current_player < 2
                  simp only [nextPlayer]
                  omega
        · rw [if_neg hcb] at hcap
          cases hbC : badd rs bA (storeIdx rs side) seeds with
          | none => simp only [hbC] at hcap; exact Option.noConfusion hcap
          | some bC =>
            simp only [hbC] at hcap
            have hpC := badd_props rs hv hpA.2.1 hbC
            simp only [Option.some.injEq, Prod.mk.injEq] at hcap
            obtain ⟨h1, _⟩ := hcap
            subst h1
            have hnp1 : totalSeeds (nextPlayer g).board = totalSeeds g.board := rfl
            refine Or.inl ⟨hpC.2.1, ?_, ?_, ?_, rfl⟩
            · show bC.buffer = 0
              have h2 := hpC.2.2.1
              omega
            · show totalSeeds bC = totalSeeds g.board
              have h2 := hpA.1
              have h3 := hpC.1
              omega
            · show (nextPlayer g).current_player < 2
              simp only [nextPlayer]
              omega
    · rw [if_neg hcond] at hcap
      simp only [Option.some.injEq, Prod.mk.injEq] at hcap
      obtain ⟨h1, _⟩ := hcap
      subst h1
      exact Or.inr rfl

end Mancala

namespace Mancala

/-- Source `_play_move` (at any recursion depth) preserves well-formedness, restores
the empty buffer, conserves seeds, keeps the player in range, and never
touches the game-over flag — on normal return and on every exception-carried
state alike. -/
theorem playMoveAux_pres (rs : Ruleset) (hv : rs.Valid) :
    ∀ (fuel : Nat) (g : Gamestate) (rel : Nat)
      (r : Except (GameErr × Gamestate) Gamestate),
      Board.WF rs g.board → g.board.buffer = 0 → g.current_player < 2 →
      playMoveAux rs fuel g rel = some r →
      Board.WF rs (stateOf r).board ∧ (stateOf r).board.buffer = 0 ∧
      totalSeeds (stateOf r).board = totalSeeds g.board ∧
      (stateOf r).current_player < 2 ∧ (stateOf r).game_over = g.game_over := by
  intro fuel
  induction fuel with
  | zero => intro g rel r _ _ _ h; exact Option.noConfusion h
  | succ f ih =>
    intro g rel r hWF hbuf hcp h
    simp only [playMoveAux] at h
    cases hg : bget rs g.board (relIdxToAbs rs g rel) with
    | none =>
      simp only [hg, Option.some.injEq] at h
      subst h
      exact ⟨hWF, hbuf, rfl, hcp, rfl⟩
    | some seedCount =>
      simp only [hg] at h
      have hgD : bgetD rs g.board (relIdxToAbs rs g rel) = seedCount := by
        simp [bgetD, hg]
      cases hb1 : bset rs g.board (relIdxToAbs rs g rel) 0 with
      | none =>
        simp only [hb1, Option.some.injEq] at h
        subst h
        exact ⟨hWF, hbuf, rfl, hcp, rfl⟩
      | some b1 =>
        simp only [hb1] at h
        have hp1 := bset_props rs hv hWF hb1
        have hbuf1 : b1.buffer = seedCount := by
          have h2 := hp1.2.2.2
          rw [hgD] at h2
          omega
        rcases hsow : sow rs g.current_player seedCount b1 (relIdxToAbs rs g rel) true
          with _ | ⟨b2, lastIdx, fc⟩
        · simp only [hsow, Option.some.injEq] at h
          subst h
          exact ⟨hWF, hbuf, rfl, hcp, rfl⟩
        · simp only [hsow] at h
          have hsp := sow_spec rs hv g.current_player seedCount b1 (relIdxToAbs rs g rel)
            true b2 lastIdx fc hp1.2.1 hsow
          have hWF2 : Board.WF rs b2 := hsp.2.1
          have hbuf2 : b2.buffer = 0 := by
            have h2 := hsp.2.2.1
            omega
          have htot2 : totalSeeds b2 = totalSeeds g.board := by
            have h2 := hsp.1
            have h3 := hp1.1
            omega
          by_cases hls : lastIdx = storeIdx rs g.current_player
          · rw [if_pos hls] at h
            by_cases hml : rs.allow_multiple_laps = true
            · rw [if_pos hml] at h
              simp only [Option.some.injEq] at h
              subst h
              exact ⟨hWF2, hbuf2, htot2, hcp, rfl⟩
            · rw [if_neg hml] at h
              simp only [Option.some.injEq] at h
              subst h
              refine ⟨hWF2, hbuf2, htot2, ?_, rfl⟩
              show 1 - g.current_player < 2
              omega
          · rw [if_neg hls] at h
            cases hg2 : bget rs b2 lastIdx with
            | none =>
              simp only [hg2, Option.some.injEq] at h
              subst h
              exact ⟨hWF2, hbuf2, htot2, hcp, rfl⟩
            | some cnt =>
              simp only [hg2] at h
              by_cases hc1 : cnt = 1
              · rw [if_pos hc1] at h
                have hcapcase :
                    ∀ {g3 : Gamestate} {flag : Bool},
                      doCapture rs { g with board := b2 } lastIdx g.current_player
                        = some (g3, flag) →
                      Board.WF rs g3.board ∧ g3.board.buffer = 0 ∧
                      totalSeeds g3.board = totalSeeds g.board ∧
                      g3.current_player < 2 ∧ g3.game_over = g.game_over := by
                  intro g3 flag hdc
                  rcases doCapture_pres rs hv (g := { g with board := b2 })
                      hWF2 hbuf2 hdc with hps | hgeq
                  · have hred : totalSeeds ({ g with board := b2 } : Gamestate).board
                        = totalSeeds b2 := rfl
                    exact ⟨hps.1, hps.2.1, by have := hps.2.2.1; omega,
                      hps.2.2.2.1, hps.2.2.2.2⟩
                  · subst hgeq
                    exact ⟨hWF2, hbuf2, htot2, hcp, rfl⟩
                by_cases hcap : rs.allow_captures = true
                · rw [if_pos hcap] at h
                  by_cases hone : rs.capture_on_one_cycle = true
                  · rw [if_pos hone] at h
                    by_cases hfc : fc = true
                    · rw [if_pos hfc] at h
                      rcases hdc : doCapture rs { g with board := b2 } lastIdx
                          g.current_player with _ | ⟨g3, flag⟩
                      · simp only [hdc, Option.some.injEq] at h
                        subst h
                        exact ⟨hWF2, hbuf2, htot2, hcp, rfl⟩
                      · simp only [hdc] at h
                        have hcc := hcapcase hdc
                        cases flag with
                        | true =>
                          simp only [Option.some.injEq] at h
                          subst h
                          exact hcc
                        | false =>
                          simp only [Option.some.injEq] at h
                          subst h
                          refine ⟨hcc.1, hcc.2.1, hcc.2.2.1, ?_, hcc.2.2.2.2⟩
                          show 1 - g3.current_player < 2
                          omega
                    · rw [if_neg hfc] at h
                      simp only [Option.some.injEq] at h
                      subst h
                      refine ⟨hWF2, hbuf2, htot2, ?_, rfl⟩
                      show 1 - g.current_player < 2
                      omega
                  · rw [if_neg hone] at h
                    rcases hdc : doCapture rs { g with board := b2 } lastIdx
                        g.current_player with _ | ⟨g3, flag⟩
                    · simp only [hdc, Option.some.injEq] at h
                      subst h
                      exact ⟨hWF2, hbuf2, htot2, hcp, rfl⟩
                    · simp only [hdc] at h
                      have hcc := hcapcase hdc
                      cases flag with
                      | true =>
                        simp only [Option.some.injEq] at h
                        subst h
                        exact hcc
                      | false =>
                        simp only [Option.some.injEq] at h
                        subst h
                        refine ⟨hcc.1, hcc.2.1, hcc.2.2.1, ?_, hcc.2.2.2.2⟩
                        show 1 - g3.current_player < 2
                        omega
                · rw [if_neg hcap] at h
                  simp only [Option.some.injEq] at h
                  subst h
                  refine ⟨hWF2, hbuf2, htot2, ?_, rfl⟩
                  show 1 - g.current_player < 2
                  omega
              · rw [if_neg hc1] at h
                by_cases hrel : rs.do_relay_sowing = true
                · rw [if_pos hrel] at h
                  have hrec := ih { g with board := b2 } (absIdxToRel rs lastIdx) r
                    hWF2 hbuf2 hcp h
                  have hred : totalSeeds ({ g with board := b2 } : Gamestate).board
                      = totalSeeds b2 := rfl
                  exact ⟨hrec.1, hrec.2.1, by have := hrec.2.2.1; omega,
                    hrec.2.2.2.1, hrec.2.2.2.2⟩
                · rw [if_neg hrel] at h
                  simp only [Option.some.injEq] at h
                  subst h
                  refine ⟨hWF2, hbuf2, htot2, ?_, rfl⟩
                  show 1 - g.current_player < 2
                  omega

end Mancala

namespace Mancala

/-- A full `play_move` call (validation, move resolution, terminal check)
preserves the engine invariant, on normal return and on every
exception-carried state. -/
theorem playMove_pres (rs : Ruleset) (hv : rs.Valid) {g : Gamestate} {fuel move : Nat}
    {r : Except (GameErr × Gamestate) Gamestate}
    (hInv : GInv rs g) (h : playMove rs fuel g move = some r) :
    GInv rs (stateOf r) := by
  obtain ⟨hWF, hbuf, htot, hcp, hterm⟩ := hInv
  unfold playMove at h
  by_cases hm : 6 ≤ move
  · rw [if_pos hm] at h
    simp only [Option.some.injEq] at h
    subst h
    exact ⟨hWF, hbuf, htot, hcp, hterm⟩
  · rw [if_neg hm] at h
    cases hmask : (validMask g).get? move with
    | none =>
      simp only [hmask, Option.some.injEq] at h
      subst h
      exact ⟨hWF, hbuf, htot, hcp, hterm⟩
    | some mv =>
      simp only [hmask] at h
      by_cases hmv : mv = false
      · rw [if_pos hmv] at h
        simp only [Option.some.injEq] at h
        subst h
        exact ⟨hWF, hbuf, htot, hcp, hterm⟩
      · rw [if_neg hmv] at h
        have hgo : g.game_over = false := by
          cases hq : g.game_over
          · rfl
          · exfalso
            obtain ⟨hcp0, hsum1, hsum2⟩ := hterm hq
            have hmask' := hmask
            unfold validMask at hmask'
            rw [hcp0] at hmask'
            simp only [Board.sideHoles, eq_self_iff_true, if_true] at hmask'
            rw [List.get?_map] at hmask'
            cases hgm : g.board.holes.1.get? move with
            | none => rw [hgm] at hmask'; exact Option.noConfusion hmask'
            | some e =>
              rw [hgm] at hmask'
              have he : e = 0 := by
                have hgd : g.board.holes.1.getD move 0 = 0 :=
                  list_sum_zero_getD _ hsum1 move
                rw [List.getD_eq_getD_get?, hgm] at hgd
                simpa using hgd
              subst he
              have h7 : some (decide ((0 : Nat) < 0)) = some mv := hmask'
              injection h7 with h7
              rw [← h7] at hmv
              exact hmv (by decide)
        cases haux : playMoveAux rs fuel g move with
        | none => rw [haux] at h; exact Option.noConfusion h
        | some r2 =>
          simp only [haux] at h
          have hpres := playMoveAux_pres rs hv fuel g move r2 hWF hbuf hcp haux
          cases r2 with
          | error e =>
            simp only [Option.some.injEq] at h
            subst h
            refine ⟨hpres.1, hpres.2.1, by have := hpres.2.2.1; omega,
              hpres.2.2.2.1, ?_⟩
            intro hq
            rw [hpres.2.2.2.2, hgo] at hq
            exact absurd hq (by simp)
          | ok g2 =>
            simp only [Option.some.injEq] at h
            subst h
            simp only [stateOf] at hpres
            have hWF2 : Board.WF rs g2.board := hpres.1
            have hbuf2 : g2.board.buffer = 0 := hpres.2.1
            have htot2 : totalSeeds g2.board = totalSeeds g.board := hpres.2.2.1
            have hcp2 : g2.current_player < 2 := hpres.2.2.2.1
            have hgo2 : g2.game_over = false := by
              rw [hpres.2.2.2.2, hgo]
            by_cases hcond : ((g2.board.holes.1.any fun c => decide (0 < c))
                && (g2.board.holes.2.any fun c => decide (0 < c))) = true
            · have hct : checkTerminal rs g2 = Except.ok g2 := by
                simp only [checkTerminal]
                rw [if_pos hcond]
              rw [hct]
              simp only [stateOf]
              refine ⟨hWF2, hbuf2, by omega, hcp2, ?_⟩
              intro hq
              rw [hgo2] at hq
              exact absurd hq (by simp)
            · obtain ⟨bF, hsw, htF, hWFF, hbufF, hz1, hz2⟩ :=
                sweepFull rs hv g2.board hWF2 hbuf2
              have hct : checkTerminal rs g2 = Except.error (GameErr.attributeError,
                  { terminate g2 with board := bF }) := by
                simp only [checkTerminal]
                rw [if_neg hcond]
                simp only [terminate, hsw]
              rw [hct]
              simp only [stateOf]
              refine ⟨?_, ?_, ?_, ?_, ?_⟩
              · exact hWFF
              · exact hbufF
              · show totalSeeds bF = 2 * rs.NUMBER_OF_HOLES_PER_SIDE * rs.seeds_per_hole
                omega
              · show (0 : Nat) < 2
                omega
              · intro _
                exact ⟨rfl, hz1, hz2⟩

/-- Every reachable gamestate satisfies the engine invariant. -/
theorem reach_GInv (rs : Ruleset) (hv : rs.Valid) {g : Gamestate}
    (hr : Reach rs g) : GInv rs g := by
  induction hr with
  | init =>
    refine ⟨⟨by simp [initGame, initBoard], by simp [initGame, initBoard]⟩,
      rfl, ?_, by show (0 : Nat) < 2; omega, ?_⟩
    · show totalSeeds (initBoard rs) = 2 * rs.NUMBER_OF_HOLES_PER_SIDE * rs.seeds_per_hole
      simp [initBoard, totalSeeds, List.sum_replicate, smul_eq_mul]
      ring
    · intro hq
      exact absurd hq (by simp [initGame])
  | ok hprev fuel move hstep ih =>
    exact playMove_pres rs hv ih hstep
  | err hprev fuel move e hstep ih =>
    have := playMove_pres rs hv ih hstep
    exact this

end Mancala

namespace Mancala

/-- Validation helper shared by the empty-hole claims: a `play_move` on an
in-range relative index addressing an empty hole of the current player's row
fails with the empty-hole error (the source `IllegalMove`), carrying the
gamestate unchanged. -/
theorem playMove_empty_hole (rs : Ruleset) (g : Gamestate) (move fuel : Nat)
    (hm6 : move < 6)
    (hmlen : move < (g.board.sideHoles g.current_player).length)
    (hempty : (g.board.sideHoles g.current_player).getD move 0 = 0) :
    playMove rs fuel g move = some (Except.error (GameErr.emptyHole, g)) := by
  have hmaskeq : (validMask g).get? move = some false := by
    unfold validMask
    rw [List.get?_map, List.get?_eq_get hmlen]
    have hgd : (g.board.sideHoles g.current_player).get ⟨move, hmlen⟩ = 0 := by
      rw [← List.getD_eq_get (g.board.sideHoles g.current_player) 0 hmlen]
      exact hempty
    rw [hgd]
    rfl
  unfold playMove
  rw [if_neg (by omega : ¬ 6 ≤ move)]
  simp only [hmaskeq]
  simp

/-- C1: for every valid ruleset and every sequence of legal `play_move` calls
from the initial position — including the object states carried out by
exceptions, in particular the state after the terminal sweep — the sum of all
hole counts plus both store counts equals
`2 * holes_per_side * seeds_per_hole`, and every count is nonnegative (counts
are natural numbers throughout the model, so nonnegativity is by
construction). -/
theorem c1_conservation (rs : Ruleset) (hv : rs.Valid) (g : Gamestate)
    (hr : Reach rs g) :
    g.board.holes.1.sum + g.board.holes.2.sum + g.board.store.1 + g.board.store.2
      = 2 * rs.NUMBER_OF_HOLES_PER_SIDE * rs.seeds_per_hole ∧
    (∀ c ∈ g.board.holes.1, 0 ≤ c) ∧ (∀ c ∈ g.board.holes.2, 0 ≤ c) ∧
    0 ≤ g.board.store.1 ∧ 0 ≤ g.board.store.2 := by
  obtain ⟨hWF, hbuf, htot, hcp, hterm⟩ := reach_GInv rs hv hr
  refine ⟨?_, fun c _ => Nat.zero_le c, fun c _ => Nat.zero_le c,
    Nat.zero_le _, Nat.zero_le _⟩
  unfold totalSeeds at htot
  omega

/-- C1 witness: the conservation theorem applied to the initial position of
the default ruleset. -/
theorem c1_conservation_witness :
    (initGame DefaultRuleset).board.holes.1.sum
      + (initGame DefaultRuleset).board.holes.2.sum
      + (initGame DefaultRuleset).board.store.1
      + (initGame DefaultRuleset).board.store.2
      = 2 * DefaultRuleset.NUMBER_OF_HOLES_PER_SIDE * DefaultRuleset.seeds_per_hole :=
  (c1_conservation DefaultRuleset (by decide) (initGame DefaultRuleset) Reach.init).1

/-- C2, the code evaluated at the failing input: the move from `gC2` empties
the mover's row, the terminal branch fires, the board is swept into the
stores (4 and 7 — so the claimed result would be 1), but the call raises
`AttributeError` because `Board.get_store` does not exist, and the carried
terminal state has `result = None` and both scores unset: the engine never
computes `score[side]` or `result`.  (Additionally, the `score` accessor it
would have used is side-swapped: `score(side)` returns `_score_1`, the side-0
value, for `side = 1`.) -/
theorem c2_terminal_crash :
    playMove DefaultRuleset 1 gC2 5
        = some (Except.error (GameErr.attributeError, gC2T)) ∧
    gC2T.game_over = true ∧ gC2T.result = none ∧
    gC2T.score 0 = none ∧ gC2T.score 1 = none ∧
    gC2T.board.store.1 = 4 ∧ gC2T.board.store.2 = 7 :=
  ⟨rfl, rfl, rfl, rfl, rfl, rfl, rfl⟩

/-- C5, the code evaluated at the failing input: the relay move from `gC5`
lands on the opponent-side hole (absolute index 8, count 2 after the landing
seed), but the next segment's source is the mover's own hole 1 — the 2 seeds
at the landing hole are never picked up (`bgetD ... 8 = 2` post-move), while
hole 1 is emptied and its seed sown to hole 2. -/
theorem c5_relay_wrong_source :
    playMove rsRelayNC 3 gC5 5 = some (Except.ok gC5r) ∧
    bgetD rsRelayNC gC5.board 8 = 1 ∧
    bgetD rsRelayNC gC5r.board 8 = 2 ∧
    bgetD rsRelayNC gC5r.board 1 = 0 ∧
    bgetD rsRelayNC gC5r.board 2 = 1 :=
  ⟨rfl, rfl, rfl, rfl, rfl⟩

/-- C7, non-termination at the failing input: under relay sowing, the
validated move 5 from `gC7` never resolves — after the first segment the
relay chain reaches `gC7s` and then relays from the mover's empty hole 1
back into the identical state, for every recursion budget (in Python:
unbounded recursion until `RecursionError`). -/
theorem c7_relay_divergence (fuel : Nat) :
    playMove rsRelay fuel gC7 5 = none := by
  have hstar : ∀ f : Nat, playMoveAux rsRelay f gC7s 1 = none := by
    intro f
    induction f with
    | zero => rfl
    | succ f2 ih =>
      have hstep : playMoveAux rsRelay (f2 + 1) gC7s 1
          = playMoveAux rsRelay f2 gC7s 1 := rfl
      rw [hstep, ih]
  cases fuel with
  | zero => rfl
  | succ f =>
    have hred : playMove rsRelay (f + 1) gC7 5
        = match playMoveAux rsRelay f gC7s 1 with
          | none => none
          | some (Except.error e) => some (Except.error e)
          | some (Except.ok g2) => some (checkTerminal rsRelay g2) := rfl
    rw [hred, hstar f]

/-- C8: a freshly constructed gamestate under the default ruleset has exactly
the claimed wire string: the fourteen counts for absolute indices 0..13 in
board layout order, a space, and the current player index 0. -/
theorem c8_initial_wire_string :
    gamestateStr DefaultRuleset (initGame DefaultRuleset)
      = "4 4 4 4 4 4 0 4 4 4 4 4 4 0 0" := rfl

/-- C9: the search command normalisation — a nonnegative depth is transmitted
doubled; depth exactly 0 forces engine id 1 (`random`) regardless of the
requested engine; a negative depth forces engine id 6 (`beta_alpha`) with the
depth negated before doubling. -/
theorem c9_engine_depth_convention (e : String) (d : Int) :
    (∀ i dd, 0 ≤ d → searchCmd e d = some (i, dd) → dd = 2 * d) ∧
    (d = 0 → searchCmd e d = some (1, 0)) ∧
    (d < 0 → searchCmd e d = some (6, 2 * (-d))) := by
  refine ⟨?_, ?_, ?_⟩
  · intro i dd hnn hcmd
    have hnlt : ¬ d < 0 := by omega
    simp only [searchCmd, if_neg hnlt] at hcmd
    cases hlook : engineLookup (if d = 0 then "random" else e) with
    | none =>
      simp only [hlook] at hcmd
      exact Option.noConfusion hcmd
    | some idx =>
      simp only [hlook, Option.some.injEq, Prod.mk.injEq] at hcmd
      omega
  · intro hd0
    subst hd0
    rfl
  · intro hdneg
    have h0 : ¬ d = 0 := by omega
    simp only [searchCmd, if_neg h0, if_pos hdneg]
    show some (6, -d * 2) = some (6, 2 * -d)
    have hmul : -d * 2 = 2 * -d := by ring
    rw [hmul]

/-- C9 witness: a negative caller depth of -3 is transmitted as engine 6 with
depth 6. -/
theorem c9_engine_depth_convention_witness :
    searchCmd "alpha_beta" (-3) = some (6, 6) := by
  have h := (c9_engine_depth_convention "alpha_beta" (-3)).2.2 (by decide)
  exact h

/-- C10 counterexample: on a fresh default board the buffer is empty, so
writing 5 into hole 0 (current count 4) makes `Board.__setitem__` pop from an
empty buffer — a Python `IndexError` — rather than succeeding. -/
theorem c10_set_get_counterexample :
    bset DefaultRuleset (initBoard DefaultRuleset) 0 5 = none := rfl

/-- C10 amended: the write succeeds, and the subsequent read returns the
written value, provided additionally that the value does not exceed the
current cell count plus the number of buffered seeds (beyond the claim's
conditions of an in-range index and nonnegative value, the latter automatic
for naturals). -/
theorem c10_set_get_amended (rs : Ruleset) (hv : rs.Valid) (b : Board)
    (hWF : Board.WF rs b) (i v : Nat) (hi : i < rs.NUMBER_OF_TOTAL_HOLES)
    (hle : v ≤ bgetD rs b i + b.buffer) :
    ∃ b', bset rs b i v = some b' ∧ bget rs b' i = some v := by
  obtain ⟨b', hb'⟩ := bset_succeeds rs hv b v hi hle
  exact ⟨b', hb', (bset_props rs hv hWF hb').2.2.1⟩

/-- C10 amended witness: writing 3 into hole 0 of a fresh default board. -/
theorem c10_set_get_amended_witness :
    ∃ b', bset DefaultRuleset (initBoard DefaultRuleset) 0 3 = some b' ∧
      bget DefaultRuleset b' 0 = some 3 :=
  c10_set_get_amended DefaultRuleset (by decide) (initBoard DefaultRuleset)
    ⟨rfl, rfl⟩ 0 3 (by decide) (by decide)

/-- C6: on a non-terminal gamestate, a `play_move` with an in-range relative
index whose hole count is 0 fails with the empty-hole error (the source
`IllegalMove`, whose docstring reads "when the hole is empty"), carrying the
gamestate unchanged — hence the board's wire string after the call is
byte-for-byte identical to before. -/
theorem c6_empty_hole_rejection (rs : Ruleset) (hv : rs.Valid) (g : Gamestate)
    (hWF : Board.WF rs g.board) (hgo : g.game_over = false) (move fuel : Nat)
    (hm6 : move < 6) (hmn : move < rs.NUMBER_OF_HOLES_PER_SIDE)
    (hempty : (g.board.sideHoles g.current_player).getD move 0 = 0) :
    playMove rs fuel g move = some (Except.error (GameErr.emptyHole, g)) ∧
    gamestateStr rs (stateOf (Except.error (GameErr.emptyHole, g)))
      = gamestateStr rs g := by
  have hmlen : move < (g.board.sideHoles g.current_player).length := by
    unfold Board.sideHoles
    split
    · rw [hWF.1]; exact hmn
    · rw [hWF.2]; exact hmn
  exact ⟨playMove_empty_hole rs g move fuel hm6 hmlen hempty, rfl⟩

/-- C6 witness: the rejection at the concrete position `gC6` (hole 0 empty). -/
theorem c6_empty_hole_rejection_witness :
    playMove DefaultRuleset 1 gC6 0
      = some (Except.error (GameErr.emptyHole, gC6)) :=
  (c6_empty_hole_rejection DefaultRuleset (by decide) gC6 ⟨rfl, rfl⟩ rfl 0 1
    (by decide) (by decide) rfl).1

end Mancala

namespace Mancala

/-- The terminal state `gTerm` is reached from a fresh game by the legal move
sequence 2, 5, 1, 2, 0, 3, 2, 4, 2, 5; the final call triggers the terminal
sweep and carries `gTerm` out via the `AttributeError`. -/
theorem gTerm_reach : Reach DefaultRuleset gTerm :=
  Reach.err (Reach.ok (Reach.ok (Reach.ok (Reach.ok (Reach.ok (Reach.ok (Reach.ok
    (Reach.ok (Reach.ok Reach.init 1 2 rfl) 1 5 rfl) 1 1 rfl) 1 2 rfl)
    1 0 rfl) 1 3 rfl) 1 2 rfl) 1 4 rfl) 1 2 rfl) 1 5 GameErr.attributeError rfl

/-- C3 counterexample: `gTerm` is a terminal gamestate reached by legal play
(see `gTerm_reach`), yet a further `play_move` fails with the empty-hole
error (the source `IllegalMove`), not with any GameOver state error — no
GameOver exception class exists in the source and `play_move` performs no
game-over check. -/
theorem c3_gameover_counterexample :
    gTerm.game_over = true ∧
    playMove DefaultRuleset 1 gTerm 0
      = some (Except.error (GameErr.emptyHole, gTerm)) ∧
    GameErr.emptyHole ≠ GameErr.gameOver :=
  ⟨rfl, rfl, by decide⟩

/-- C3 amended: every reachable terminal gamestate is absorbing — every
further `play_move` call fails and carries the gamestate back unchanged —
but the failure is the source's `InvalidMove` (out-of-range index) or
`IllegalMove` (the terminal sweep left every hole of the displayed player
empty), not a GameOver state error. -/
theorem c3_terminal_absorbing (g : Gamestate) (hr : Reach DefaultRuleset g)
    (hgo : g.game_over = true) (move fuel : Nat) :
    (6 ≤ move → playMove DefaultRuleset fuel g move
      = some (Except.error (GameErr.moveOutOfRange, g))) ∧
    (move < 6 → playMove DefaultRuleset fuel g move
      = some (Except.error (GameErr.emptyHole, g))) := by
  obtain ⟨hWF, hbuf, htot, hcp, hterm⟩ := reach_GInv DefaultRuleset (by decide) hr
  obtain ⟨hcp0, hsum1, hsum2⟩ := hterm hgo
  constructor
  · intro hm
    unfold playMove
    rw [if_pos hm]
  · intro hm
    apply playMove_empty_hole
    · exact hm
    · rw [hcp0]
      show move < (g.board.sideHoles 0).length
      unfold Board.sideHoles
      rw [if_pos rfl, hWF.1]
      exact hm
    · rw [hcp0]
      show (g.board.sideHoles 0).getD move 0 = 0
      unfold Board.sideHoles
      rw [if_pos rfl]
      exact list_sum_zero_getD _ hsum1 move

/-- C3 amended witness: the reachable terminal state `gTerm` rejects the
in-range move 3 with the empty-hole error, unchanged. -/
theorem c3_terminal_absorbing_witness :
    playMove DefaultRuleset 5 gTerm 3
      = some (Except.error (GameErr.emptyHole, gTerm)) :=
  (c3_terminal_absorbing gTerm gTerm_reach rfl 3 5).2 (by decide)

end Mancala

namespace Mancala

/-- Source `_do_capture` under the conditions that actually make it fire: the landing
cell is a valid cell of the mover (`is_valid_move`) and the mirror hole is
nonempty.  It swaps the player and moves the mirror hole's seeds (plus, under
`capture_both`, the landing seed) into the mover's store. -/
theorem doCapture_success (rs : Ruleset) (hv : rs.Valid) (g2 : Gamestate)
    (hWF2 : Board.WF rs g2.board) (hbuf2 : g2.board.buffer = 0)
    (h : Nat) (hhlt : h < rs.NUMBER_OF_TOTAL_HOLES)
    (hstlt : storeIdx rs g2.current_player < rs.NUMBER_OF_TOTAL_HOLES)
    (hsth : storeIdx rs g2.current_player ≠ h)
    (hstopp : storeIdx rs g2.current_player ≠ 2 * rs.PLAYER_TO_STORE_INDEX.1 - h)
    (hvalid : isValidMove rs g2 h = true)
    (hone : bget rs g2.board h = some 1)
    (oc : Nat) (hoc : bget rs g2.board (2 * rs.PLAYER_TO_STORE_INDEX.1 - h) = some oc)
    (hocpos : oc ≠ 0)
    (hopph : 2 * rs.PLAYER_TO_STORE_INDEX.1 - h ≠ h) :
    ∃ bC, doCapture rs g2 h g2.current_player
        = some ({ nextPlayer g2 with board := bC }, true) ∧
      bget rs bC (2 * rs.PLAYER_TO_STORE_INDEX.1 - h) = some 0 ∧
      bget rs bC h = some (if rs.capture_both then 0 else 1) ∧
      bget rs bC (storeIdx rs g2.current_player)
        = some (bgetD rs g2.board (storeIdx rs g2.current_player) + oc
            + (if rs.capture_both then 1 else 0)) := by
  have hopplt : 2 * rs.PLAYER_TO_STORE_INDEX.1 - h < rs.NUMBER_OF_TOTAL_HOLES :=
    bget_some_lt hoc
  have hDopp : bgetD rs g2.board (2 * rs.PLAYER_TO_STORE_INDEX.1 - h) = oc := by
    simp [bgetD, hoc]
  obtain ⟨bA, hbA⟩ := bset_succeeds rs hv g2.board 0 hopplt (by omega)
  have hpA := bset_props rs hv hWF2 hbA
  have hbufA : bA.buffer = oc := by
    have h9 := hpA.2.2.2
    rw [hDopp] at h9
    omega
  have hA_opp : bget rs bA (2 * rs.PLAYER_TO_STORE_INDEX.1 - h) = some 0 :=
    hpA.2.2.1
  have hA_h : bget rs bA h = some 1 := by
    rw [bset_frame rs hv hbA hhlt (Ne.symm hopph)]
    exact hone
  have hA_st : bget rs bA (storeIdx rs g2.current_player)
      = bget rs g2.board (storeIdx rs g2.current_player) :=
    bset_frame rs hv hbA hstlt hstopp
  by_cases hcb : rs.capture_both = true
  · obtain ⟨bB, hbB⟩ := bset_succeeds rs hv bA 0 hhlt (by omega)
    have hpB := bset_props rs hv hpA.2.1 hbB
    have hDh : bgetD rs bA h = 1 := by simp [bgetD, hA_h]
    have hbufB : bB.buffer = oc + 1 := by
      have h9 := hpB.2.2.2
      rw [hDh] at h9
      omega
    have hB_h : bget rs bB h = some 0 := hpB.2.2.1
    have hB_opp : bget rs bB (2 * rs.PLAYER_TO_STORE_INDEX.1 - h) = some 0 := by
      rw [bset_frame rs hv hbB hopplt hopph]
      exact hA_opp
    have hB_st : bget rs bB (storeIdx rs g2.current_player)
        = bget rs g2.board (storeIdx rs g2.current_player) := by
      rw [bset_frame rs hv hbB hstlt hsth]
      exact hA_st
    obtain ⟨bC, hbC⟩ := badd_succeeds rs hv bB (oc + 1) hstlt (by omega)
    have hpC := badd_props rs hv hpB.2.1 hbC
    have hC_st : bget rs bC (storeIdx rs g2.current_player)
        = some (bgetD rs g2.board (storeIdx rs g2.current_player) + oc + 1) := by
      have h9 := hpC.2.2.2.2
      have hD3 : bgetD rs bB (storeIdx rs g2.current_player)
          = bgetD rs g2.board (storeIdx rs g2.current_player) := by
        unfold bgetD
        rw [hB_st]
      rw [hD3, ← Nat.add_assoc] at h9
      exact h9
    have hC_opp : bget rs bC (2 * rs.PLAYER_TO_STORE_INDEX.1 - h) = some 0 := by
      rw [badd_frame rs hv hbC hopplt (Ne.symm hstopp)]
      exact hB_opp
    have hC_h : bget rs bC h = some 0 := by
      rw [badd_frame rs hv hbC hhlt (Ne.symm hsth)]
      exact hB_h
    refine ⟨bC, ?_, hC_opp, by rw [if_pos hcb]; exact hC_h, ?_⟩
    · simp only [doCapture, nextPlayer, hoc]
      rw [if_pos ⟨hvalid, hocpos⟩]
      simp only [hbA, hcb, if_true, hA_h, hbB, hbC]
    · rw [if_pos hcb]
      exact hC_st
  · obtain ⟨bC, hbC⟩ := badd_succeeds rs hv bA oc hstlt (by omega)
    have hpC := badd_props rs hv hpA.2.1 hbC
    have hC_st : bget rs bC (storeIdx rs g2.current_player)
        = some (bgetD rs g2.board (storeIdx rs g2.current_player) + oc) := by
      have h9 := hpC.2.2.2.2
      have hD3 : bgetD rs bA (storeIdx rs g2.current_player)
          = bgetD rs g2.board (storeIdx rs g2.current_player) := by
        unfold bgetD
        rw [hA_st]
      rw [hD3] at h9
      exact h9
    have hC_opp : bget rs bC (2 * rs.PLAYER_TO_STORE_INDEX.1 - h) = some 0 := by
      rw [badd_frame rs hv hbC hopplt (Ne.symm hstopp)]
      exact hA_opp
    have hC_h : bget rs bC h = some 1 := by
      rw [badd_frame rs hv hbC hhlt (Ne.symm hsth)]
      exact hA_h
    refine ⟨bC, ?_, hC_opp, by rw [if_neg hcb]; exact hC_h, ?_⟩
    · simp only [doCapture, nextPlayer, hoc]
      rw [if_pos ⟨hvalid, hocpos⟩]
      simp only [hbA, hcb, if_false, hbC]
      rfl
    · rw [if_neg hcb]
      simpa using hC_st

end Mancala

namespace Mancala

/-- C4 counterexample: at `gC4c` the claim's conditions all hold — the move
ends on hole 1 (not the store) with count 1 after the landing seed, under
`allow_captures = true`, `capture_both = true`, `capture_on_one_cycle =
false` — yet the code does not capture: `_do_capture` also requires the
mirror hole (absolute index 11, here empty) to be nonempty, so the move
merely swaps the player, the landing hole keeps its single seed, and the
mover's store does not increase by the claimed `0 + 0 + 1`. -/
theorem c4_capture_counterexample :
    playMove DefaultRuleset 1 gC4c 0 = some (Except.ok gC4r) ∧
    gC4r.board.store.1 = gC4c.board.store.1 ∧
    bgetD DefaultRuleset gC4r.board 1 = 1 ∧
    bgetD DefaultRuleset gC4r.board 11 = 0 :=
  ⟨rfl, rfl, rfl, rfl⟩

/-- C4 amended: the capture behaviour as claimed, under the two additional
conditions the code imposes in `_do_capture`: the landing index must be a
valid cell of the mover (`is_valid_move`) and the mirror hole must be
nonempty.  When the sowing of the picked-up seeds lands on `h` — not the
mover's store — with count 1, captures are enabled, and the one-cycle
restriction (if on) is met, `_play_move` empties the mirror hole
`2*store_index[0] - h` into the mover's store, additionally the landing hole
under `capture_both` (store gain `opposite + 1`), and the turn passes to the
other player. -/
theorem c4_capture_amended (rs : Ruleset) (hv : rs.Valid) (g : Gamestate)
    (hWF : Board.WF rs g.board) (hbuf : g.board.buffer = 0)
    (hcp : g.current_player < 2)
    (rel fuel : Nat) (seedCnt : Nat) (b1 b2 : Board) (h : Nat) (fc : Bool)
    (hget : bget rs g.board (relIdxToAbs rs g rel) = some seedCnt)
    (hset : bset rs g.board (relIdxToAbs rs g rel) 0 = some b1)
    (hsow : sow rs g.current_player seedCnt b1 (relIdxToAbs rs g rel) true
      = some (b2, h, fc))
    (hns : h ≠ storeIdx rs g.current_player)
    (hone : bget rs b2 h = some 1)
    (hcap : rs.allow_captures = true)
    (hcyc : rs.capture_on_one_cycle = true → fc = true)
    (hvalid : isValidMove rs g h = true)
    (oc : Nat)
    (hoc : bget rs b2 (2 * rs.PLAYER_TO_STORE_INDEX.1 - h) = some oc)
    (hocpos : oc ≠ 0) :
    ∃ g', playMoveAux rs (fuel + 1) g rel = some (Except.ok g') ∧
      g'.current_player = 1 - g.current_player ∧
      bget rs g'.board (2 * rs.PLAYER_TO_STORE_INDEX.1 - h) = some 0 ∧
      bget rs g'.board h = some (if rs.capture_both then 0 else 1) ∧
      bget rs g'.board (storeIdx rs g.current_player)
        = some (bgetD rs b2 (storeIdx rs g.current_player) + oc
            + (if rs.capture_both then 1 else 0)) ∧
      g'.game_over = g.game_over := by
  have hv' := hv
  obtain ⟨hn, ht, hs1, hs2⟩ := hv'
  have hgD : bgetD rs g.board (relIdxToAbs rs g rel) = seedCnt := by
    simp [bgetD, hget]
  have hp1 := bset_props rs hv hWF hset
  have hbuf1 : b1.buffer = seedCnt := by
    have h9 := hp1.2.2.2
    rw [hgD] at h9
    omega
  have hsp := sow_spec rs hv g.current_player seedCnt b1 (relIdxToAbs rs g rel)
    true b2 h fc hp1.2.1 hsow
  have hWF2 : Board.WF rs b2 := hsp.2.1
  have hbuf2 : b2.buffer = 0 := by
    have h9 := hsp.2.2.1
    omega
  have hsct : seedCnt ≠ 0 := by
    intro h0
    subst h0
    obtain ⟨hb2, hl, _⟩ := hsp.2.2.2.1 rfl
    subst hb2
    subst hl
    have h9 := hp1.2.2.1
    rw [hone] at h9
    simp at h9
  have hland := hsp.2.2.2.2 (Nat.pos_of_ne_zero hsct)
  have hnopp : h ≠ storeIdx rs (1 - g.current_player) := hland.1
  have hhlt : h < rs.NUMBER_OF_TOTAL_HOLES := hland.2
  have hsiv : h ≠ rs.NUMBER_OF_HOLES_PER_SIDE ∧
      h ≠ 2 * rs.NUMBER_OF_HOLES_PER_SIDE + 1 := by
    rcases (by omega : g.current_player = 0 ∨ g.current_player = 1) with hcpv | hcpv
    · have e1 : storeIdx rs g.current_player = rs.NUMBER_OF_HOLES_PER_SIDE := by
        rw [hcpv]; simp [storeIdx, hs1]
      have e2 : storeIdx rs (1 - g.current_player)
          = 2 * rs.NUMBER_OF_HOLES_PER_SIDE + 1 := by
        rw [hcpv]; simp [storeIdx, hs2]
      exact ⟨fun hh => hns (by rw [e1]; exact hh),
        fun hh => hnopp (by rw [e2]; exact hh)⟩
    · have e1 : storeIdx rs g.current_player
          = 2 * rs.NUMBER_OF_HOLES_PER_SIDE + 1 := by
        rw [hcpv]; simp [storeIdx, hs2]
      have e2 : storeIdx rs (1 - g.current_player)
          = rs.NUMBER_OF_HOLES_PER_SIDE := by
        rw [hcpv]; simp [storeIdx, hs1]
      exact ⟨fun hh => hnopp (by rw [e2]; exact hh),
        fun hh => hns (by rw [e1]; exact hh)⟩
  have hh2n : h ≤ 2 * rs.NUMBER_OF_HOLES_PER_SIDE := by omega
  have hstv : storeIdx rs g.current_player = rs.NUMBER_OF_HOLES_PER_SIDE ∨
      storeIdx rs g.current_player = 2 * rs.NUMBER_OF_HOLES_PER_SIDE + 1 := by
    unfold storeIdx
    split
    · exact Or.inl hs1
    · exact Or.inr hs2
  have hstlt : storeIdx rs g.current_player < rs.NUMBER_OF_TOTAL_HOLES := by
    rcases hstv with hq | hq <;> omega
  have hstopp : storeIdx rs g.current_player
      ≠ 2 * rs.PLAYER_TO_STORE_INDEX.1 - h := by
    rw [hs1]
    rcases hstv with hq | hq <;> omega
  have hopph : 2 * rs.PLAYER_TO_STORE_INDEX.1 - h ≠ h := by
    rw [hs1]
    omega
  obtain ⟨bC, hdc, hcopp, hch, hcst⟩ :=
    doCapture_success rs hv { g with board := b2 } hWF2 hbuf2 h hhlt
      hstlt (Ne.symm hns) hstopp hvalid hone oc hoc hocpos hopph
  have hdc2 : doCapture rs { g with board := b2 } h g.current_player
      = some ({ nextPlayer { g with board := b2 } with board := bC }, true) := hdc
  have hch2 : bget rs bC h = some (if rs.capture_both then 0 else 1) := hch
  have hcst2 : bget rs bC (storeIdx rs g.current_player)
      = some (bgetD rs b2 (storeIdx rs g.current_player) + oc
          + (if rs.capture_both then 1 else 0)) := hcst
  refine ⟨{ nextPlayer { g with board := b2 } with board := bC }, ?_, rfl,
    hcopp, hch2, hcst2, rfl⟩
  simp only [playMoveAux, hget, hset, hsow]
  rw [if_neg hns]
  simp only [hone]
  rw [if_pos trivial, if_pos hcap]
  by_cases hcyb : rs.capture_on_one_cycle = true
  · rw [if_pos hcyb, if_pos (hcyc hcyb), hdc2]
  · rw [if_neg hcyb, hdc2]

end Mancala

namespace Mancala

/-- C4 amended witness: from `gC4w`, move 0 sows two seeds, lands on the
empty hole 2; its mirror (index 10) holds 3 seeds, both additional conditions
hold, and the capture yields store 6 = 0 + 3 + 1 with both holes emptied and
the turn passed. -/
theorem c4_capture_amended_witness :
    ∃ g', playMoveAux DefaultRuleset 1 gC4w 0 = some (Except.ok g') ∧
      g'.current_player = 1 ∧
      bget DefaultRuleset g'.board 10 = some 0 ∧
      bget DefaultRuleset g'.board 2 = some 0 ∧
      bget DefaultRuleset g'.board 6 = some 4 ∧
      g'.game_over = false :=
  c4_capture_amended DefaultRuleset (by decide) gC4w ⟨rfl, rfl⟩ rfl (by decide)
    0 0 2
    { holes := ([0, 0, 0, 0, 0, 0], [4, 4, 4, 3, 4, 4]), store := (0, 0), buffer := 2 }
    { holes := ([0, 1, 1, 0, 0, 0], [4, 4, 4, 3, 4, 4]), store := (0, 0), buffer := 0 }
    2 true rfl rfl rfl (by decide) rfl rfl (by decide) rfl 3 rfl (by decide)

end Mancala
